import Mathlib

/-!
Shallow embedding of the memory-manager extension (src/index.js) and proofs
about its data store, extraction/compression pipeline, retrieval tiers and
JSON sanitizer.  Each definition is translated from the JavaScript source;
line numbers in doc comments refer to src/index.js.
-/

namespace MemoryManager

/-- Compression level constants (lines 55–57). -/
def COMPRESS_FRESH : Nat := 0

/-- Page compressed to a short summary (line 56). -/
def COMPRESS_SUMMARY : Nat := 1

/-- Archived: merged into timeline and deleted (line 57). -/
def COMPRESS_ARCHIVED : Nat := 2

/-- The eight valid semantic categories (lines 60–70, `Object.keys(MEMORY_CATEGORIES)`). -/
def MEMORY_CATEGORY_KEYS : List String :=
  ["emotional", "relationship", "intimate", "promise",
   "conflict", "discovery", "turning_point", "daily"]

/-- A story page (shape pushed at lines 1785–1798). `sourceMessages` is always
`[]` in the source and is omitted; `createdAt` models `Date.now()` as a natural. -/
structure Page where
  id : String
  day : String
  title : String
  content : String
  keywords : List String
  characters : List String
  categories : List String
  significance : String
  compressionLevel : Nat
  createdAt : Nat
  compressedAt : Option Nat
deriving DecidableEq

/-- An NPC dossier (shape at lines 1713–1718). -/
structure Character where
  name : String
  appearance : String
  personality : String
  attitude : String
deriving DecidableEq

/-- A known-character attitude record (lines 1698–1701). -/
structure KnownAttitude where
  name : String
  attitude : String
deriving DecidableEq

/-- An item record (lines 1761–1765). -/
structure Item where
  name : String
  status : String
  significance : String
deriving DecidableEq

/-- `data.processing` (extraction bookkeeping). -/
structure Processing where
  lastExtractedMessageId : Int
  extractionInProgress : Bool
deriving DecidableEq

/-- The per-conversation memory store.  The JS `embeddings` object and
`messageRecalls` object are modelled as association lists keyed by id
(JS object keys are unique; insertion order is preserved as in V8). -/
structure MemoryData where
  timeline : String
  knownCharacterAttitudes : List KnownAttitude
  characters : List Character
  items : List Item
  pages : List Page
  embeddings : List (String × List ℚ)
  processing : Processing
  messageRecalls : List (String × List String)
deriving DecidableEq

/-- Result of a retrieval tier: selected pages and character dossiers. -/
structure RetrievalResult where
  pages : List Page
  characters : List Character
deriving DecidableEq

/-- The ids of the pages of a store, in order. -/
def pageIds (data : MemoryData) : List String :=
  data.pages.map (·.id)

/-- First-match compression level of the page with the given id
(`data.pages.find(p => p.id === pid)`). -/
def levelOf (data : MemoryData) (pid : String) : Option Nat :=
  (data.pages.find? (fun p => p.id = pid)).map (·.compressionLevel)

/-- Whether `sub` occurs as a contiguous run inside `l`. -/
def listHasRun [DecidableEq α] (l sub : List α) : Bool :=
  (List.range (l.length + 1)).any (fun i => sub.isPrefixOf (l.drop i))

/-- JS `String.prototype.includes`: substring containment. -/
def jsIncludes (s sub : String) : Bool :=
  listHasRun s.toList sub.toList

/-- Replace the first element satisfying `p` by its image under `f`
(models in-place mutation of the object returned by `Array.prototype.find`). -/
def updateFirst (p : α → Bool) (f : α → α) : List α → List α
  | [] => []
  | x :: xs => if p x then f x :: xs else x :: updateFirst p f xs

/-- Remove the first element satisfying `p`
(models `findIndex` + `splice(idx, 1)`). -/
def eraseFirst (p : α → Bool) : List α → List α
  | [] => []
  | x :: xs => if p x then xs else x :: eraseFirst p xs

/-- Stable insertion used to model JS `Array.prototype.sort` (a stable sort):
`keep y x` says the already-placed element `y` stays in front of the incoming
element `x`. -/
def stableInsert (keep : α → α → Bool) (x : α) : List α → List α
  | [] => [x]
  | y :: ys => if keep y x then y :: stableInsert keep x ys else x :: y :: ys

/-- Stable sort by repeated insertion, processing elements left to right. -/
def stableSort (keep : α → α → Bool) (l : List α) : List α :=
  l.foldl (fun acc x => stableInsert keep x acc) []

/-- Descending sort by a rational score, stable, as `sort((a, b) => b.score - a.score)`. -/
def sortByScoreDesc (key : α → ℚ) (l : List α) : List α :=
  stableSort (fun y x => key x ≤ key y) l

/-- Ascending sort by a natural key, stable, as `sort((a, b) => a.createdAt - b.createdAt)`. -/
def sortByKeyAsc (key : α → Nat) (l : List α) : List α :=
  stableSort (fun y x => key y ≤ key x) l

/-!  ## Keyword fallback retriever (lines 2437–2469)  -/

/-- Score of one page against the query-token set (lines 2441–2450).
The JS `Set` of query keywords is modelled as its (duplicate-free)
insertion-order list; only membership and iteration are used. -/
def pageScore (queryKeywords : List String) (p : Page) : ℚ :=
  let base := p.keywords.foldl (fun acc kw =>
    let acc := if queryKeywords.contains kw then acc + 2 else acc
    queryKeywords.foldl (fun a q =>
      if q ≠ kw ∧ (jsIncludes q kw ∨ jsIncludes kw q) then a + 1 else a) acc) 0
  let base := if p.significance = "high" then base + 1 else base
  if p.compressionLevel = COMPRESS_FRESH then base + 1/2 else base

/-- Keyword-based fallback retrieval (lines 2437–2469): score eligible pages,
drop zero scores, rank descending, keep `maxPages`; characters are those
mentioned by selected pages or named by a query token, capped at 2. -/
def keywordFallbackRetrieve (data : MemoryData) (queryKeywords : List String)
    (maxPages : Nat) : RetrievalResult :=
  let scored := ((data.pages.filter (fun p => p.compressionLevel ≤ COMPRESS_SUMMARY)).map
      (fun p => (p, pageScore queryKeywords p))).filter (fun s => 0 < s.2)
  let sorted := sortByScoreDesc (fun s => s.2) scored
  let pages := (sorted.take maxPages).map (·.1)
  let mentionedChars := pages.foldl (fun acc p => acc ++ p.characters) [] ++
      (data.characters.filter (fun c => queryKeywords.contains c.name)).map (·.name)
  let characters := (data.characters.filter (fun c => mentionedChars.contains c.name)).take 2
  ⟨pages, characters⟩

/-!  ## Embedding pre-filter (lines 1158–1180)  -/

/-- First-match lookup in the embeddings object (`data.embeddings[pageId]`). -/
def lookupEmbedding (emb : List (String × List ℚ)) (k : String) : Option (List ℚ) :=
  (emb.find? (fun e => e.1 = k)).map (·.2)

/-- The `scored` list built by the loop at lines 1162–1169: every page with
`compressionLevel ≤ SUMMARY` that has a cached vector, paired with its score.
The floating-point cosine similarity (`cosineSimilarity`, lines 1060–1068,
`dot / (sqrt ⬝ sqrt)` in IEEE doubles) is not shallowly embeddable and is
passed in as the `score` parameter; every theorem below holds for an
arbitrary `score` function and hence for the actual one. -/
def preFilterScored (score : List ℚ → List ℚ → ℚ) (data : MemoryData)
    (queryVec : List ℚ) : List (Page × ℚ) :=
  data.pages.filterMap (fun p =>
    if COMPRESS_SUMMARY < p.compressionLevel then none
    else (lookupEmbedding data.embeddings p.id).map (fun v => (p, score queryVec v)))

/-- `embeddingPreFilter(data, recentText, topK)` (lines 1158–1180).  The
embedding-API call for the query (`callEmbeddingsApi([recentText])`) either
yields a vector or throws (network failure / missing configuration); its
outcome is the `queryVec` argument, `none` meaning the call threw.  The
surrounding `try`/`catch` turns a throw into a `null` return. -/
def embeddingPreFilter (score : List ℚ → List ℚ → ℚ) (data : MemoryData)
    (queryVec : Option (List ℚ)) (topK : Nat) : Option (List Page) :=
  match queryVec with
  | none => none
  | some qv =>
    let sorted := sortByScoreDesc (fun s => s.2) (preFilterScored score data qv)
    some ((sorted.take topK).map (·.1))

/-!  ## Retrieval agent (lines 2145–2431)  -/

/-- Arguments of a model tool call, after JSON decoding (lines 406–419).
Only the fields consumed by the selection logic are modelled. -/
structure ToolArgs where
  page_id : Option String
  name : Option String
deriving DecidableEq

/-- A decoded tool call: `{name, arguments}`. -/
structure ToolCall where
  name : String
  arguments : ToolArgs
deriving DecidableEq

/-- JS truthiness of an optional string field (`tc.arguments.page_id`). -/
def truthyStr : Option String → Bool
  | none => false
  | some s => s ≠ ""

/-- The four local search tools (lines 2308–2311). -/
def SEARCH_TOOL_NAMES : List String :=
  ["search_pages_by_category", "recall_pages_by_day",
   "get_relationship_history", "search_by_keyword"]

/-- A tool definition reduced to the parts the claims are about: its name and
the enumerable values of its parameter schema (`enum`).  Descriptions and the
rest of the schema carry no behaviour. -/
structure Tool where
  name : String
  enumVals : List String
deriving DecidableEq

/-- `buildRetrievalTools(data, candidatePages)` (lines 2145–2265).
`candidatePages || data.pages` is JS null-coalescing: a non-null empty
candidate list is used as-is. -/
def buildRetrievalTools (data : MemoryData) (candidatePages : Option (List Page)) :
    List Tool :=
  let availablePages := (candidatePages.getD data.pages).filter
      (fun p => p.compressionLevel ≤ COMPRESS_SUMMARY)
  let t1 : List Tool :=
    if availablePages.isEmpty then []
    else [⟨"recall_story_page", availablePages.map (·.id)⟩]
  let t2 : List Tool :=
    if data.characters.isEmpty then []
    else [⟨"recall_character", data.characters.map (·.name)⟩]
  t1 ++ t2 ++
    [⟨"search_pages_by_category", MEMORY_CATEGORY_KEYS⟩,
     ⟨"recall_pages_by_day", []⟩,
     ⟨"get_relationship_history", []⟩,
     ⟨"search_by_keyword", []⟩]

/-- Processing of one direct-fetch call in round 1 (lines 2385–2393):
resolve against the full store, push subject to the quota, no dedup check. -/
def round1Step (data : MemoryData) (maxPages : Nat)
    (acc : List Page × List Character) (tc : ToolCall) : List Page × List Character :=
  if tc.name = "recall_story_page" ∧ truthyStr tc.arguments.page_id then
    match data.pages.find? (fun p => some p.id = tc.arguments.page_id) with
    | some page => if acc.1.length < maxPages then (acc.1 ++ [page], acc.2) else acc
    | none => acc
  else if tc.name = "recall_character" ∧ truthyStr tc.arguments.name then
    match data.characters.find? (fun c => some c.name = tc.arguments.name) with
    | some ch => if acc.2.length < 2 then (acc.1, acc.2 ++ [ch]) else acc
    | none => acc
  else acc

/-- Processing of one round-2 tool call (lines 2407–2419): same as round 1
plus a `!includes` dedup check against the running selection. -/
def round2Step (data : MemoryData) (maxPages : Nat)
    (acc : List Page × List Character) (tc : ToolCall) : List Page × List Character :=
  if tc.name = "recall_story_page" ∧ truthyStr tc.arguments.page_id then
    match data.pages.find? (fun p => some p.id = tc.arguments.page_id) with
    | some page =>
      if acc.1.length < maxPages ∧ page ∉ acc.1 then (acc.1 ++ [page], acc.2) else acc
    | none => acc
  else if tc.name = "recall_character" ∧ truthyStr tc.arguments.name then
    match data.characters.find? (fun c => some c.name = tc.arguments.name) with
    | some ch =>
      if acc.2.length < 2 ∧ ch ∉ acc.2 then (acc.1, acc.2 ++ [ch]) else acc
    | none => acc
  else acc

/-- The round-1 classification and selection plus the conditional round 2
(lines 2371–2423), for a non-thrown round-1 reply `tcs`.  `round2 = none`
models the round-2 call throwing (caught at lines 2420–2422, keeping the
round-1 results). -/
def agentRounds (data : MemoryData) (maxPages : Nat) (tcs : List ToolCall)
    (round2 : Option (List ToolCall)) : List Page × List Character :=
  let searchCalls := tcs.filter (fun tc => SEARCH_TOOL_NAMES.contains tc.name)
  let recallCalls := tcs.filter
      (fun tc => tc.name = "recall_story_page" ∨ tc.name = "recall_character")
  let acc1 := recallCalls.foldl (round1Step data maxPages) ([], [])
  if ¬ searchCalls.isEmpty ∧ acc1.1.length < maxPages then
    match round2 with
    | none => acc1
    | some tcs2 => tcs2.foldl (round2Step data maxPages) acc1
  else acc1

/-- `agentRetrieve(data, recentText, candidatePages, maxPages)`
(lines 2357–2431).  The two external reasoning calls are the `round1` and
`round2` arguments (`none` = the call threw; the outer catch at lines
2427–2430 returns the empty selection).  Prompt strings
(`buildRetrievalPrompt`, `executeSearchTool`) are shown to the external model
only; since the model's replies are the universally quantified
`round1`/`round2` inputs, they do not influence the selection and are not
modelled. -/
def agentRetrieve (data : MemoryData) (candidatePages : Option (List Page))
    (maxPages : Nat) (round1 round2 : Option (List ToolCall)) : RetrievalResult :=
  if data.pages.isEmpty ∧ data.characters.isEmpty then ⟨[], []⟩
  else
    let tools := buildRetrievalTools data candidatePages
    if tools.isEmpty then ⟨[], []⟩
    else
      match round1 with
      | none => ⟨[], []⟩
      | some tcs =>
        let acc := agentRounds data maxPages tcs round2
        ⟨acc.1, acc.2⟩

/-!  ## JSON sanitizer `fixJsonString` (lines 1278–1329)  -/

/-- The peek at lines 1304–1308: skip spaces and tabs (`raw[j] === ' ' ||
raw[j] === '\t'`), then decide whether the quote closes the string: it does
when the next character is `:`/`,`/`}`/`]`/newline/carriage-return or the
input is exhausted (`next === undefined`). -/
def peekCloses (rest : List Char) : Bool :=
  match rest.dropWhile (fun c => c = ' ' ∨ c = '\t') with
  | [] => true
  | c :: _ => c = ':' ∨ c = ',' ∨ c = '}' ∨ c = ']' ∨ c = '\n' ∨ c = '\r'

/-- The character scan of `fixJsonString` (lines 1283–1325), carrying the
`inString` and `escaped` flags. -/
def fixLoop (inString escaped : Bool) : List Char → List Char
  | [] => []
  | c :: rest =>
    if escaped then c :: fixLoop inString false rest
    else if c = '\\' ∧ inString then c :: fixLoop inString true rest
    else if c = '"' then
      if ¬ inString then c :: fixLoop true escaped rest
      else if peekCloses rest then c :: fixLoop false escaped rest
      else '\\' :: '"' :: fixLoop inString escaped rest
    else if inString ∧ c = '\n' then '\\' :: 'n' :: fixLoop inString escaped rest
    else if inString ∧ c = '\r' then fixLoop inString escaped rest
    else if inString ∧ c = '\t' then '\\' :: 't' :: fixLoop inString escaped rest
    else c :: fixLoop inString escaped rest

/-- JS `\s` for the purposes of the trailing-comma regex: space, tab,
newline, carriage return, vertical tab, form feed. -/
def jsWs (c : Char) : Bool :=
  c = ' ' ∨ c = '\t' ∨ c = '\n' ∨ c = '\r' ∨ c = '\x0b' ∨ c = '\x0c'

/-- JS `String.prototype.trim`, over the explicit character list (the
built-in `String.trim` does not reduce in the kernel). -/
def jsTrim (s : String) : String :=
  String.mk (((s.toList.dropWhile jsWs).reverse.dropWhile jsWs).reverse)

/-- The final pass `result.replace(/,\s*([}\]])/g, '$1')` (line 1327): a comma
followed by whitespace and a closing bracket is replaced by the bracket alone;
matching is global, left to right, non-overlapping.  The `fuel` argument only
makes the recursion structural: every step consumes at least one input
character while spending one unit of fuel, so `fuel = length` never runs out. -/
def stripCommaGo : Nat → List Char → List Char
  | 0, l => l
  | _ + 1, [] => []
  | fuel + 1, c :: rest =>
    if c = ',' then
      match rest.dropWhile jsWs with
      | b :: rest' =>
        if b = '}' ∨ b = ']' then b :: stripCommaGo fuel rest'
        else c :: stripCommaGo fuel rest
      | [] => c :: stripCommaGo fuel rest
    else c :: stripCommaGo fuel rest

/-- Entry point of the trailing-comma pass. -/
def stripCommaLoop (l : List Char) : List Char :=
  stripCommaGo l.length l

/-- `fixJsonString(raw)` (lines 1278–1329). -/
def fixJsonString (raw : String) : String :=
  String.mk (stripCommaLoop (fixLoop false false raw.toList))

/-!  The two spec-side formulations of the sanitizer, for the refinement
comparison: a generic scanner parameterised by the closing-quote rule, against
which both the claim's rule and the amended rule are instantiated.  -/

/-- Generic sanitizer scan following the spec's description: a single
left-to-right pass tracking inside-string state; `closes` decides whether an
unescaped quote met inside a string terminates it. -/
def specScan (closes : List Char → Bool) (inString escaped : Bool) :
    List Char → List Char
  | [] => []
  | c :: rest =>
    if escaped then c :: specScan closes inString false rest
    else if c = '\\' ∧ inString then c :: specScan closes inString true rest
    else if c = '"' then
      if ¬ inString then c :: specScan closes true escaped rest
      else if closes rest then c :: specScan closes false escaped rest
      else '\\' :: '"' :: specScan closes inString escaped rest
    else if inString ∧ c = '\n' then '\\' :: 'n' :: specScan closes inString escaped rest
    else if inString ∧ c = '\r' then specScan closes inString escaped rest
    else if inString ∧ c = '\t' then '\\' :: 't' :: specScan closes inString escaped rest
    else c :: specScan closes inString escaped rest

/-- The closing-quote rule exactly as the claim words it: the quote is a
genuine terminator iff the next non-whitespace character after it is one of
`:`, `,`, `}`, `]`, or the input ends. -/
def claimCloses (rest : List Char) : Bool :=
  match rest.dropWhile (fun c => jsWs c) with
  | [] => true
  | c :: _ => c = ':' ∨ c = ',' ∨ c = '}' ∨ c = ']'

/-- The claim's version of the sanitizer. -/
def fixJsonStringClaimed (raw : String) : String :=
  String.mk (stripCommaLoop (specScan claimCloses false false raw.toList))

/-- The amended closing-quote rule: only spaces and tabs are skipped, and a
newline or carriage return also counts as a terminator trigger. -/
def amendedCloses (rest : List Char) : Bool :=
  match rest.dropWhile (fun c => c = ' ' ∨ c = '\t') with
  | [] => true
  | c :: _ => c = ':' ∨ c = ',' ∨ c = '}' ∨ c = ']' ∨ c = '\n' ∨ c = '\r'

/-- The amended version of the sanitizer. -/
def fixJsonStringAmended (raw : String) : String :=
  String.mk (stripCommaLoop (specScan amendedCloses false false raw.toList))

/-!  ## Structured output parser `parseJsonResponse` (lines 1217–1276)  -/

/-- A JSON value, as produced by the platform `JSON.parse`. -/
inductive Json where
  | null : Json
  | bool : Bool → Json
  | num : ℚ → Json
  | str : String → Json
  | arr : List Json → Json
  | obj : List (String × Json) → Json

/-- First index at which `pat` occurs in `l` (JS `indexOf`). -/
def findRunIdx [DecidableEq α] (l pat : List α) : Option Nat :=
  (List.range (l.length + 1)).find? (fun i => pat.isPrefixOf (l.drop i))

/-- Last index at which `pat` occurs in `l` (JS `lastIndexOf`). -/
def findRunIdxLast [DecidableEq α] (l pat : List α) : Option Nat :=
  ((List.range (l.length + 1)).filter (fun i => pat.isPrefixOf (l.drop i))).getLast?

/-- Strategy 1 extraction (line 1226): the greedy regex
` ```(?:json)?\s*\n?([\s\S]+)\n?\s*``` ` grabs from the first fence —
skipping an optional `json` tag — through the last fence; the capture is then
trimmed (line 1228). -/
def strat1Extract (text : String) : Option String :=
  let l := text.toList
  let fence := [Char.ofNat 96, Char.ofNat 96, Char.ofNat 96]
  match findRunIdx l fence with
  | none => none
  | some i =>
    let start := if ['j', 's', 'o', 'n'].isPrefixOf (l.drop (i + 3)) then i + 7 else i + 3
    match findRunIdxLast l fence with
    | none => none
    | some j =>
      if start < j then some (jsTrim (String.mk ((l.drop start).take (j - start)))) else none

/-- Strategy 2 extraction (lines 1241–1244): the substring from the first `{`
to the last `}`, requiring `braceEnd > braceStart`. -/
def strat2Extract (text : String) : Option String :=
  let l := text.toList
  match findRunIdx l ['{'], findRunIdxLast l ['}'] with
  | some i, some j => if i < j then some (String.mk ((l.drop i).take (j + 1 - i))) else none
  | _, _ => none

/-- The smart-quote replacement of strategy 3 (lines 1261–1262): double
smart quotes become `\"`, single smart quotes become `\'`. -/
def smartQuoteFix (s : String) : String :=
  String.mk (s.toList.foldr (fun c acc =>
    if c ∈ ['“', '”', '„', '‟', '″', '‶'] then
      '\\' :: '"' :: acc
    else if c ∈ ['‘', '’', '‚', '‛', '′', '‵'] then
      '\\' :: Char.ofNat 39 :: acc
    else c :: acc) [])

/-- Strategy 3 extraction (line 1258): the greedy regex `\{[\s\S]*\}` matches
from the first `{` through the last `}`, the same substring as strategy 2. -/
def strat3Extract (text : String) : Option String :=
  strat2Extract text

/-- One parsing strategy: extract a candidate substring, sanitize it, and
hand it to the platform JSON parser (`JSON.parse`, a browser builtin not in
this repository, passed in as `jparse`; `none` models a parse exception). -/
def runStrategy (jparse : String → Option Json) (extract : String → Option String)
    (text : String) : Option Json :=
  (extract text).bind (fun raw => jparse (fixJsonString raw))

/-- Strategy 3 additionally normalises smart quotes before sanitizing. -/
def runStrategy3 (jparse : String → Option Json) (text : String) : Option Json :=
  (strat3Extract text).bind (fun raw => jparse (fixJsonString (smartQuoteFix raw)))

/-- `parseJsonResponse(text)` (lines 1217–1276): the three ordered strategies;
the first success wins, and `null` is returned when all fail.  The
non-string-input guard at lines 1218–1221 is outside the model (inputs here
are always strings). -/
def parseJsonResponse (jparse : String → Option Json) (text : String) : Option Json :=
  match runStrategy jparse strat1Extract text with
  | some r => some r
  | none =>
    match runStrategy jparse strat2Extract text with
    | some r => some r
    | none => runStrategy3 jparse text

/-!  ## Extraction engine (lines 1675–1861)  -/

/-- Field lookup on a JSON object (`result.timeline` etc.); `none` for
absent fields and for non-objects (JS `undefined`). -/
def Json.getField : Json → String → Option Json
  | .obj fields, k => (fields.find? (fun f => f.1 = k)).map (·.2)
  | _, _ => none

/-- JS truthiness of a JSON value (NaN does not arise over ℚ). -/
def Json.truthy : Json → Bool
  | .null => false
  | .bool b => b
  | .num q => q ≠ 0
  | .str s => s ≠ ""
  | .arr _ => true
  | .obj _ => true

/-- The elements of a JSON array (`Array.isArray` guard). -/
def Json.asArr : Json → Option (List Json)
  | .arr l => some l
  | _ => none

/-- String content of a JSON value.  The extraction prompt's schema makes all
read fields strings; for the (untyped) non-string cases this models JS string
coercion approximately — no claim depends on those branches. -/
def Json.coerceStr : Json → String
  | .str s => s
  | .null => "null"
  | .bool b => if b then "true" else "false"
  | .num _ => ""
  | .arr _ => ""
  | .obj _ => "[object Object]"

/-- `j.field || ''` for a string-valued field: its coerced content when
present and truthy, `""` otherwise. -/
def getStrField (j : Json) (k : String) : String :=
  match j.getField k with
  | some v => if v.truthy then v.coerceStr else ""
  | none => ""

/-- Truthy field access (`if (result.x)` / `!incoming.name` guards). -/
def fieldTruthy (j : Json) (k : String) : Bool :=
  match j.getField k with
  | some v => v.truthy
  | none => false

/-- One iteration of the known-character-attitude loop (lines 1688–1703):
unknown names are skipped; an existing record's attitude is updated in place
when the incoming attitude is truthy; otherwise a new record is pushed. -/
def applyKnownAttitude (knownLower : List String) (d : MemoryData)
    (incoming : Json) : MemoryData :=
  if ¬ fieldTruthy incoming "name" then d
  else
    let name := (getStrField incoming "name")
    if ¬ knownLower.contains ((jsTrim name).toLower) then d
    else
      match d.knownCharacterAttitudes.find?
          (fun k => k.name.toLower = (jsTrim name).toLower) with
      | some _ =>
        if fieldTruthy incoming "attitude" then
          { d with knownCharacterAttitudes :=
              (updateFirst (fun k => k.name.toLower = (jsTrim name).toLower)
                (fun k => { k with attitude := getStrField incoming "attitude" })
                d.knownCharacterAttitudes) }
        else d
      | none =>
        { d with knownCharacterAttitudes := d.knownCharacterAttitudes ++
            [⟨jsTrim name, getStrField incoming "attitude"⟩] }

/-- One iteration of the backward-compatible `characters` loop
(lines 1722–1757): a known name updates/pushes an attitude record, any other
name replaces or pushes a full NPC dossier. -/
def applyLegacyCharacter (userLower : String) (knownLower : List String)
    (d : MemoryData) (c : Json) : MemoryData :=
  if ¬ fieldTruthy c "name" then d
  else
    let name := getStrField c "name"
    if (jsTrim name).toLower = userLower then d
    else
      let attitude :=
        if fieldTruthy c "attitude" then getStrField c "attitude"
        else getStrField c "relationship"
      if knownLower.contains ((jsTrim name).toLower) then
        match d.knownCharacterAttitudes.find?
            (fun k => k.name.toLower = (jsTrim name).toLower) with
        | some _ =>
          if attitude ≠ "" then
            { d with knownCharacterAttitudes :=
                (updateFirst (fun k => k.name.toLower = (jsTrim name).toLower)
                  (fun k => { k with attitude := attitude })
                  d.knownCharacterAttitudes) }
          else d
        | none =>
          { d with knownCharacterAttitudes := d.knownCharacterAttitudes ++
              [⟨jsTrim name, attitude⟩] }
      else
        let charData : Character :=
          ⟨name, getStrField c "appearance", getStrField c "personality", attitude⟩
        match d.characters.find? (fun ch => ch.name.toLower = (jsTrim name).toLower) with
        | some _ =>
          { d with characters :=
              (updateFirst (fun ch => ch.name.toLower = (jsTrim name).toLower)
                (fun _ => charData) d.characters) }
        | none => { d with characters := d.characters ++ [charData] }

/-- One iteration of the new-page loop (lines 1771–1800): validation, keyword
and category filtering, and the append with a freshly generated id.  The
accumulator carries the store, the ids of pages created so far, and the
number of `generateId` calls made; `genId k` is the result of the `k`-th call. -/
def applyNewPage (now : Nat) (genId : Nat → String)
    (acc : MemoryData × List String × Nat) (pj : Json) :
    MemoryData × List String × Nat :=
  let (d, ids, k) := acc
  if ¬ fieldTruthy pj "title" ∨ ¬ fieldTruthy pj "content"
      ∨ (getStrField pj "content").length < 10 then acc
  else
    let keywords := match (pj.getField "keywords").bind Json.asArr with
      | some ks => ks.map Json.coerceStr
      | none => []
    if keywords.length < 1 then acc
    else
      let charNames := d.characters.map (·.name)
      let pageChars := keywords.filter (charNames.contains ·)
      let rawCategories := match (pj.getField "categories").bind Json.asArr with
        | some cs => cs.map Json.coerceStr
        | none => []
      let categories := rawCategories.filter (MEMORY_CATEGORY_KEYS.contains ·)
      let newId := genId k
      let page : Page :=
        { id := newId
          day := getStrField pj "day"
          title := getStrField pj "title"
          content := getStrField pj "content"
          keywords := keywords
          characters := pageChars
          categories := categories
          significance :=
            if fieldTruthy pj "significance" then getStrField pj "significance"
            else "medium"
          compressionLevel := COMPRESS_FRESH
          createdAt := now
          compressedAt := none }
      ({ d with pages := d.pages ++ [page] }, ids ++ [newId], k + 1)

/-- The timeline update (lines 1676–1679). -/
def applyTimelinePart (data : MemoryData) (result : Json) : MemoryData :=
  match result.getField "timeline" with
  | some t => if t.truthy then { data with timeline := t.coerceStr } else data
  | none => data

/-- The known-character-attitude update (lines 1687–1704). -/
def applyKnownPart (knownLower : List String) (data : MemoryData)
    (result : Json) : MemoryData :=
  match (result.getField "knownCharacterAttitudes").bind Json.asArr with
  | some entries =>
    if entries.length > 0 then entries.foldl (applyKnownAttitude knownLower) data
    else data
  | none => data

/-- The wholesale NPC replacement (lines 1707–1719). -/
def applyNewCharsPart (userLower : String) (knownLower : List String)
    (data : MemoryData) (result : Json) : MemoryData :=
  match (result.getField "newCharacters").bind Json.asArr with
  | some cs =>
    if cs.length > 0 then
      { data with characters := cs.filterMap (fun c =>
          if fieldTruthy c "name"
              ∧ (jsTrim (getStrField c "name")).toLower ≠ userLower
              ∧ ¬ knownLower.contains ((jsTrim (getStrField c "name")).toLower) then
            some ⟨getStrField c "name", getStrField c "appearance",
                  getStrField c "personality", getStrField c "attitude"⟩
          else none) }
    else data
  | none => data

/-- The backward-compatible `characters` merge (lines 1722–1757). -/
def applyLegacyPart (userLower : String) (knownLower : List String)
    (data : MemoryData) (result : Json) : MemoryData :=
  match (result.getField "characters").bind Json.asArr with
  | some cs =>
    if ¬ fieldTruthy result "newCharacters" then
      cs.foldl (applyLegacyCharacter userLower knownLower) data
    else data
  | none => data

/-- The wholesale items replacement (lines 1760–1766). -/
def applyItemsPart (data : MemoryData) (result : Json) : MemoryData :=
  match (result.getField "items").bind Json.asArr with
  | some its =>
    { data with items := its.map (fun it =>
        ⟨getStrField it "name", getStrField it "status",
         getStrField it "significance"⟩) }
  | none => data

/-- The new-page loop (lines 1769–1801), returning the created page ids. -/
def applyNewPagesPart (now : Nat) (genId : Nat → String) (data : MemoryData)
    (result : Json) : MemoryData × List String :=
  match (result.getField "newPages").bind Json.asArr with
  | some ps =>
    let acc := ps.foldl (applyNewPage now genId) (data, [], 0)
    (acc.1, acc.2.1)
  | none => (data, [])

/-- `applyExtractionResult(data, result)` (lines 1675–1803): the sequential
composition of the six merge steps.  `userName` is `ctx.name1`, `knownNames`
the result of `getKnownCharacterNames()`; `now` models `Date.now()` and
`genId` the `generateId` stream.  Returns the updated store and the created
page ids. -/
def applyExtractionResult (userName : String) (knownNames : List String)
    (now : Nat) (genId : Nat → String) (data : MemoryData) (result : Json) :
    MemoryData × List String :=
  let userLower := (jsTrim userName).toLower
  let knownLower := knownNames.map (·.toLower)
  applyNewPagesPart now genId
    (applyItemsPart
      (applyLegacyPart userLower knownLower
        (applyNewCharsPart userLower knownLower
          (applyKnownPart knownLower
            (applyTimelinePart data result) result) result) result) result)
    result

/-- A chat message as consumed by extraction (`{name, mes, is_system}`). -/
structure Msg where
  name : String
  mes : String
  sys : Bool
deriving DecidableEq

/-- Extraction context: the chat and the ambient names
(`ctx.name1`, `getKnownCharacterNames()`). -/
structure ExtCtx where
  chat : List Msg
  name1 : String
  knownNames : List String

/-- The new-message window joined at lines 1814–1817. -/
def newMsgsText (ctx : ExtCtx) (startIdx : Nat) : String :=
  String.intercalate "\n\n"
    (((ctx.chat.drop startIdx).filter (fun m => ¬ m.sys)).map
      (fun m => m.name ++ ": " ++ m.mes))

/-- `performExtraction()` (lines 1805–1861), up to the persistence point at
line 1840, as a function of the store and the generation-call outcome
(`response = none` models a thrown `callLLM`).  Returns the updated store and
`some message` when the function throws.  The success-path continuations
(embedding of new pages, the compression cycle, auto-save) are separate
engine invocations modelled by their own operations below. -/
def performExtraction (jparse : String → Option Json) (ctx : ExtCtx)
    (now : Nat) (genId : Nat → String) (data : MemoryData)
    (response : Option String) : MemoryData × Option String :=
  let lastId := data.processing.lastExtractedMessageId
  let startIdx := (max 0 (lastId + 1)).toNat
  if startIdx ≥ ctx.chat.length then (data, none)
  else if jsTrim (newMsgsText ctx startIdx) = "" then (data, none)
  else
    match response with
    | none => (data, some "LLM call failed")
    | some resp =>
      match parseJsonResponse jparse resp with
      | none => (data, some "Failed to parse extraction response")
      | some result =>
        let d1 := (applyExtractionResult ctx.name1 ctx.knownNames now genId data result).1
        ({ d1 with processing :=
            { d1.processing with
                lastExtractedMessageId := (ctx.chat.length : Int) - 1 } }, none)

/-!  ## Compression engine (lines 1956–2087)  -/

/-- The settings fields read by the compression engine. -/
structure CompSettings where
  useEmbedding : Bool
  embeddingConfigured : Bool
  autoCompress : Bool
  compressAfterPages : Nat
  archiveAfterPages : Nat
  maxTimelineEntries : Nat

/-- JS object assignment `data.embeddings[k] = v`: replace in place when the
key exists, append otherwise. -/
def setEmbedding (emb : List (String × List ℚ)) (k : String) (v : List ℚ) :
    List (String × List ℚ) :=
  if (emb.find? (fun e => e.1 = k)).isSome then
    updateFirst (fun e => e.1 = k) (fun e => (e.1, v)) emb
  else emb ++ [(k, v)]

/-- The in-place page mutation of a successful compression
(lines 1971–1973): overwrite the content, advance the level, stamp
`compressedAt`. -/
def summarizeUpd (s : String) (now : Nat) : Page → Page :=
  fun p => { p with content := jsTrim s, compressionLevel := COMPRESS_SUMMARY,
                    compressedAt := some now }

/-- `compressPage(data, pageId)` (lines 1956–1984).  `llm` is the outcome of
the generation call (`none` = it threw, caught at lines 1981–1983) and `emb`
the outcome of the re-embedding call inside `embedPage` (`none` = it failed,
swallowed as non-critical). -/
def compressPage (st : CompSettings) (now : Nat) (data : MemoryData)
    (pageId : String) (llm : Option String) (emb : Option (List ℚ)) : MemoryData :=
  match data.pages.find? (fun p => p.id = pageId) with
  | none => data
  | some page =>
    if page.compressionLevel ≠ COMPRESS_FRESH then data
    else
      match llm with
      | none => data
      | some compressed =>
        if compressed ≠ "" ∧ 10 < (jsTrim compressed).length then
          let d1 := { data with pages :=
              (updateFirst (fun p => p.id = pageId)
                (summarizeUpd compressed now) data.pages) }
          if st.useEmbedding ∧ st.embeddingConfigured then
            match emb with
            | some v => { d1 with embeddings := setEmbedding d1.embeddings pageId v }
            | none => d1
          else d1
        else data

/-- `archivePage(data, pageId)` (lines 1989–2011): delete the page, its
embedding entry, and every reference to it in the recall log, dropping recall
entries left empty. -/
def archivePage (data : MemoryData) (pageId : String) : MemoryData :=
  match data.pages.find? (fun p => p.id = pageId) with
  | none => data
  | some page =>
    if page.compressionLevel < COMPRESS_SUMMARY then data
    else
      { data with
        pages := eraseFirst (fun p => p.id = pageId) data.pages,
        embeddings := data.embeddings.filter (fun e => e.1 ≠ pageId),
        messageRecalls := data.messageRecalls.filterMap (fun e =>
          let filtered := e.2.filter (fun i => i ≠ pageId)
          if filtered.isEmpty then none else some (e.1, filtered)) }

/-- `compressTimeline(data)` (lines 2016–2044): one generation call, applied
only when it does not increase the number of non-empty lines. -/
def compressTimeline (st : CompSettings) (data : MemoryData)
    (llm : Option String) : MemoryData :=
  let lines := (data.timeline.splitOn "\n").filter (fun l => jsTrim l ≠ "")
  if lines.length ≤ st.maxTimelineEntries then data
  else
    match llm with
    | none => data
    | some compressed =>
      if compressed ≠ "" ∧ 20 < (jsTrim compressed).length then
        let newLines := ((jsTrim compressed).splitOn "\n").filter (fun l => jsTrim l ≠ "")
        if newLines.length ≤ lines.length then { data with timeline := jsTrim compressed }
        else data
      else data

/-- `runCompressionCycle(data, force)` (lines 2049–2087): timeline compaction,
then FRESH→SUMMARY compression of the oldest excess, then archiving of the
oldest excess SUMMARY pages.  `pLLM`/`pEmb` give the per-page outcomes of the
generation and embedding calls, keyed by page id. -/
def runCompressionCycle (st : CompSettings) (now : Nat) (force : Bool)
    (tLLM : Option String) (pLLM : String → Option String)
    (pEmb : String → Option (List ℚ)) (data : MemoryData) : MemoryData :=
  if ¬ st.autoCompress ∧ ¬ force then data
  else
    let data := compressTimeline st data tLLM
    let freshPages := sortByKeyAsc (fun p => p.createdAt)
        (data.pages.filter (fun p => p.compressionLevel = COMPRESS_FRESH))
    let data :=
      if st.compressAfterPages < freshPages.length then
        (freshPages.take (freshPages.length - st.compressAfterPages)).foldl
          (fun d page => compressPage st now d page.id (pLLM page.id) (pEmb page.id))
          data
      else data
    let summaryPages := sortByKeyAsc (fun p => p.createdAt)
        (data.pages.filter (fun p => p.compressionLevel = COMPRESS_SUMMARY))
    if st.archiveAfterPages < summaryPages.length then
      (summaryPages.take (summaryPages.length - st.archiveAfterPages)).foldl
        (fun d page => archivePage d page.id) data
    else data

/-!  ## Operation sequences over the store  -/

/-- An operation of the extraction/compression pipeline, carrying the
outcomes of its external calls. -/
inductive MemOp where
  | extractOp (jparse : String → Option Json) (ctx : ExtCtx) (now : Nat)
      (genId : Nat → String) (response : Option String) : MemOp
  | compressOp (st : CompSettings) (now : Nat) (pid : String)
      (llm : Option String) (emb : Option (List ℚ)) : MemOp
  | archiveOp (pid : String) : MemOp
  | timelineOp (st : CompSettings) (llm : Option String) : MemOp
  | cycleOp (st : CompSettings) (now : Nat) (force : Bool) (tLLM : Option String)
      (pLLM : String → Option String) (pEmb : String → Option (List ℚ)) : MemOp

/-- Apply one operation to the store. -/
def applyOp (d : MemoryData) : MemOp → MemoryData
  | .extractOp jp ctx now genId resp => (performExtraction jp ctx now genId d resp).1
  | .compressOp st now pid llm emb => compressPage st now d pid llm emb
  | .archiveOp pid => archivePage d pid
  | .timelineOp st llm => compressTimeline st d llm
  | .cycleOp st now force tLLM pLLM pEmb =>
      runCompressionCycle st now force tLLM pLLM pEmb d

/-- Apply a sequence of operations left to right. -/
def applyOps (d : MemoryData) (ops : List MemOp) : MemoryData :=
  ops.foldl applyOp d

/-- `generateId` produces collision-resistant fresh ids (line 157): for an
extraction op this says the id stream is injective and avoids the ids already
in the store; other operations create no pages. -/
def opIdsOk (d : MemoryData) : MemOp → Prop
  | .extractOp _ _ _ genId _ =>
      Function.Injective genId ∧ ∀ k, genId k ∉ pageIds d
  | _ => True

/-- Freshness of generated ids along a whole operation sequence. -/
def opsIdsOk : MemoryData → List MemOp → Prop
  | _, [] => True
  | d, op :: rest => opIdsOk d op ∧ opsIdsOk (applyOp d op) rest

/-- Levels never decrease between two stores, for every id present in both. -/
def LevelMono (d1 d2 : MemoryData) : Prop :=
  ∀ pid l l', levelOf d1 pid = some l → levelOf d2 pid = some l' → l ≤ l'

/-- No page id reappears: an id absent from `d1` is absent from `d2`. -/
def NoRevive (d1 d2 : MemoryData) : Prop :=
  ∀ pid, levelOf d1 pid = none → levelOf d2 pid = none

/-- The page ids named by the round-1 `recall_story_page` calls that pass the
truthiness guard (statement vocabulary for the dedup theorems). -/
def r1PageIdsOf (tcs : List ToolCall) : List String :=
  tcs.filterMap (fun tc =>
    if tc.name = "recall_story_page" ∧ truthyStr tc.arguments.page_id then
      tc.arguments.page_id
    else none)

/-- The character names named by the round-1 `recall_character` calls that
pass the truthiness guard. -/
def r1CharNamesOf (tcs : List ToolCall) : List String :=
  tcs.filterMap (fun tc =>
    if tc.name = "recall_character" ∧ truthyStr tc.arguments.name then
      tc.arguments.name
    else none)

/-!  ## Concrete fixtures for counterexamples and witnesses  -/

/-- A high-significance FRESH page whose keywords share nothing with the
query window used against it. -/
def cexPage1 : Page :=
  { id := "p1", day := "D1", title := "t", content := "c",
    keywords := ["alpha"], characters := [], categories := [],
    significance := "high", compressionLevel := 0, createdAt := 0,
    compressedAt := none }

/-- The empty store template. -/
def emptyData : MemoryData :=
  { timeline := "", knownCharacterAttitudes := [], characters := [],
    items := [], pages := [], embeddings := [],
    processing := ⟨-1, false⟩, messageRecalls := [] }

/-- Store holding only `cexPage1`. -/
def cexData1 : MemoryData := { emptyData with pages := [cexPage1] }

/-- A medium-significance SUMMARY variant of `cexPage1`. -/
def cexPage1w : Page :=
  { cexPage1 with significance := "medium", compressionLevel := 1 }

/-- Store holding only `cexPage1w`. -/
def cexData1w : MemoryData := { emptyData with pages := [cexPage1w] }

/-- A `recall_story_page` call for `cexPage1`. -/
def tcRecallP1 : ToolCall := ⟨"recall_story_page", ⟨some "p1", none⟩⟩

/-- A second page, outside the candidate set used in the C9 counterexample. -/
def cexPage2 : Page := { cexPage1 with id := "p2" }

/-- Store holding `cexPage1` and `cexPage2`. -/
def cexData9 : MemoryData := { emptyData with pages := [cexPage1, cexPage2] }

/-- A `recall_story_page` call for `cexPage2`. -/
def tcRecallP2 : ToolCall := ⟨"recall_story_page", ⟨some "p2", none⟩⟩

/-- Compression settings used by witnesses. -/
def cexSettings : CompSettings :=
  { useEmbedding := false, embeddingConfigured := false, autoCompress := true,
    compressAfterPages := 15, archiveAfterPages := 20, maxTimelineEntries := 20 }

/-- Store for the archive witness: one SUMMARY page with a cached vector and
one recall-log reference. -/
def cexData3 : MemoryData :=
  { emptyData with
    pages := [cexPage1w]
    embeddings := [("p1", [1])]
    messageRecalls := [("7", ["p1"])] }

/-- A one-message chat context for the extraction witness. -/
def wCtx : ExtCtx := ⟨[⟨"A", "hi", false⟩], "User", []⟩

/-- A platform JSON parser that always fails (rejects every sanitized
candidate), used to exercise the all-strategies-fail path. -/
def jnone : String → Option Json := fun _ => none

/-!  # Theorems  -/

/-!  ## Generic list lemmas  -/

theorem foldl_preserve {P : β → Prop} (f : β → α → β) (l : List α) (b : β)
    (h : ∀ b' a, a ∈ l → P b' → P (f b' a)) (hb : P b) : P (l.foldl f b) := by
  induction l generalizing b with
  | nil => exact hb
  | cons x xs ih =>
    exact ih (f b x) (fun b' a ha => h b' a (List.mem_cons_of_mem x ha))
      (h b x (List.mem_cons_self x xs) hb)

theorem foldl_fixed {f : β → α → β} {l : List α} {b : β}
    (h : ∀ b' a, a ∈ l → f b' a = b') : l.foldl f b = b := by
  induction l generalizing b with
  | nil => rfl
  | cons x xs ih =>
    rw [List.foldl_cons, h b x (List.mem_cons_self x xs)]
    exact ih (fun b' a ha => h b' a (List.mem_cons_of_mem x ha))

theorem mem_stableInsert (keep : α → α → Bool) (x : α) (l : List α) (a : α) :
    a ∈ stableInsert keep x l ↔ a = x ∨ a ∈ l := by
  induction l with
  | nil => simp [stableInsert]
  | cons y ys ih =>
    simp only [stableInsert]
    split
    · simp only [List.mem_cons, ih]
      tauto
    · simp only [List.mem_cons]

theorem mem_stableSort (keep : α → α → Bool) (l : List α) (a : α) :
    a ∈ stableSort keep l ↔ a ∈ l := by
  have key : ∀ (l' : List α) (acc : List α),
      a ∈ l'.foldl (fun acc x => stableInsert keep x acc) acc ↔ a ∈ acc ∨ a ∈ l' := by
    intro l'
    induction l' with
    | nil => simp
    | cons y ys ih =>
      intro acc
      rw [List.foldl_cons, ih]
      rw [mem_stableInsert]
      simp only [List.mem_cons]
      tauto
  have h := key l []
  simp only [List.not_mem_nil, false_or] at h
  exact (stableSort.eq_1 keep l) ▸ h

theorem pairwise_stableInsert_desc (key : α → ℚ) (x : α) (l : List α)
    (hl : l.Pairwise (fun a b => key b ≤ key a)) :
    (stableInsert (fun y z => key z ≤ key y) x l).Pairwise
      (fun a b => key b ≤ key a) := by
  induction l with
  | nil => simp [stableInsert]
  | cons y ys ih =>
    rw [List.pairwise_cons] at hl
    obtain ⟨hy, hys⟩ := hl
    simp only [stableInsert]
    split
    · rename_i hcond
      rw [List.pairwise_cons]
      constructor
      · intro b hb
        rw [mem_stableInsert] at hb
        rcases hb with rfl | hb
        · exact of_decide_eq_true hcond
        · exact hy b hb
      · exact ih hys
    · rename_i hcond
      rw [List.pairwise_cons]
      constructor
      · intro b hb
        rcases List.mem_cons.mp hb with rfl | hb
        · simp only [decide_eq_true_eq] at hcond
          linarith [not_le.mp hcond]
        · have h1 : key b ≤ key y := hy b hb
          simp only [decide_eq_true_eq] at hcond
          linarith [not_le.mp hcond]
      · exact List.pairwise_cons.mpr ⟨hy, hys⟩

theorem pairwise_sortByScoreDesc (key : α → ℚ) (l : List α) :
    (sortByScoreDesc key l).Pairwise (fun a b => key b ≤ key a) := by
  rw [sortByScoreDesc, stableSort]
  exact foldl_preserve _ l []
    (fun acc a _ hacc => pairwise_stableInsert_desc key a acc hacc)
    List.Pairwise.nil

/-!  ## C1: keyword fallback on pages without keyword overlap  -/

theorem pageScore_no_overlap (qk : List String) (p : Page)
    (hkw : ∀ kw ∈ p.keywords, ¬ qk.contains kw ∧
      ∀ q ∈ qk, ¬ (q ≠ kw ∧ (jsIncludes q kw ∨ jsIncludes kw q)))
    (hsig : p.significance ≠ "high")
    (hfresh : p.compressionLevel ≠ COMPRESS_FRESH) :
    pageScore qk p = 0 := by
  rw [pageScore]
  have hbase : p.keywords.foldl (fun acc kw =>
      let acc := if qk.contains kw then acc + 2 else acc
      qk.foldl (fun a q =>
        if q ≠ kw ∧ (jsIncludes q kw ∨ jsIncludes kw q) then a + 1 else a) acc) 0
      = (0 : ℚ) := by
    apply foldl_fixed
    intro b' kw hkw'
    obtain ⟨h1, h2⟩ := hkw kw hkw'
    simp only [h1, if_false, Bool.false_eq_true]
    exact foldl_fixed (fun a q hq => by simp [h2 q hq])
  simp only [hbase, hsig, hfresh, if_false]

theorem mem_fallback_score_pos (data : MemoryData) (qk : List String)
    (maxPages : Nat) (p : Page)
    (hp : p ∈ (keywordFallbackRetrieve data qk maxPages).pages) :
    0 < pageScore qk p := by
  rw [keywordFallbackRetrieve] at hp
  simp only at hp
  rw [List.mem_map] at hp
  obtain ⟨pair, hpair, rfl⟩ := hp
  have h1 : pair ∈ sortByScoreDesc (fun s => s.2)
      (((data.pages.filter (fun p => p.compressionLevel ≤ COMPRESS_SUMMARY)).map
        (fun p => (p, pageScore qk p))).filter (fun s => 0 < s.2)) :=
    List.mem_of_mem_take hpair
  rw [sortByScoreDesc.eq_1, mem_stableSort] at h1
  have h2 := List.of_mem_filter h1
  have h3 := List.mem_of_mem_filter h1
  rw [List.mem_map] at h3
  obtain ⟨q, _, rfl⟩ := h3
  simpa using h2

/-- C1 (corrected): a page with no exact or substring keyword/query overlap
receives only the significance and freshness bonuses; it is excluded exactly
when it is also not high-significance and not FRESH.  This theorem proves the
amended exclusion. -/
theorem keywordFallback_no_overlap_excluded (data : MemoryData) (qk : List String)
    (maxPages : Nat) (p : Page)
    (hkw : ∀ kw ∈ p.keywords, ¬ qk.contains kw ∧
      ∀ q ∈ qk, ¬ (q ≠ kw ∧ (jsIncludes q kw ∨ jsIncludes kw q)))
    (hsig : p.significance ≠ "high")
    (hfresh : p.compressionLevel ≠ COMPRESS_FRESH) :
    p ∉ (keywordFallbackRetrieve data qk maxPages).pages := by
  intro hp
  have := mem_fallback_score_pos data qk maxPages p hp
  rw [pageScore_no_overlap qk p hkw hsig hfresh] at this
  exact lt_irrefl 0 this

/-- C1 counterexample: against an empty query-token set (no overlap with any
keyword), the high-significance FRESH page is still returned, contradicting
the claim that such a page is always excluded regardless of significance and
compression level. -/
theorem keywordFallback_bonus_cex :
    (keywordFallbackRetrieve cexData1 [] 3).pages = [cexPage1] := by
  norm_num [keywordFallbackRetrieve, pageScore, cexData1, cexPage1, emptyData,
    sortByScoreDesc, stableSort, stableInsert, COMPRESS_FRESH, COMPRESS_SUMMARY]

/-- Witness for the amended C1 theorem at a concrete input. -/
theorem keywordFallback_no_overlap_excluded_witness :
    cexPage1w ∉ (keywordFallbackRetrieve cexData1w ["beta"] 3).pages :=
  keywordFallback_no_overlap_excluded cexData1w ["beta"] 3 cexPage1w
    (by decide) (by decide) (by decide)

/-!  ## C6: caps on pages and characters at every tier  -/

theorem round1Step_caps (data : MemoryData) (maxPages : Nat)
    (acc : List Page × List Character) (tc : ToolCall)
    (h1 : acc.1.length ≤ maxPages) (h2 : acc.2.length ≤ 2) :
    (round1Step data maxPages acc tc).1.length ≤ maxPages ∧
    (round1Step data maxPages acc tc).2.length ≤ 2 := by
  rw [round1Step]
  split
  · split
    · split
      · rename_i hlt
        refine ⟨?_, h2⟩
        simp only [List.length_append, List.length_cons, List.length_nil]
        omega
      · exact ⟨h1, h2⟩
    · exact ⟨h1, h2⟩
  · split
    · split
      · split
        · rename_i hlt
          refine ⟨h1, ?_⟩
          simp only [List.length_append, List.length_cons, List.length_nil]
          omega
        · exact ⟨h1, h2⟩
      · exact ⟨h1, h2⟩
    · exact ⟨h1, h2⟩

theorem round2Step_caps (data : MemoryData) (maxPages : Nat)
    (acc : List Page × List Character) (tc : ToolCall)
    (h1 : acc.1.length ≤ maxPages) (h2 : acc.2.length ≤ 2) :
    (round2Step data maxPages acc tc).1.length ≤ maxPages ∧
    (round2Step data maxPages acc tc).2.length ≤ 2 := by
  rw [round2Step]
  split
  · split
    · split
      · rename_i hlt
        refine ⟨?_, h2⟩
        simp only [List.length_append, List.length_cons, List.length_nil]
        omega
      · exact ⟨h1, h2⟩
    · exact ⟨h1, h2⟩
  · split
    · split
      · split
        · rename_i hlt
          refine ⟨h1, ?_⟩
          simp only [List.length_append, List.length_cons, List.length_nil]
          omega
        · exact ⟨h1, h2⟩
      · exact ⟨h1, h2⟩
    · exact ⟨h1, h2⟩

theorem round1_fold_caps (data : MemoryData) (maxPages : Nat)
    (tcs : List ToolCall) (acc : List Page × List Character)
    (h1 : acc.1.length ≤ maxPages) (h2 : acc.2.length ≤ 2) :
    (tcs.foldl (round1Step data maxPages) acc).1.length ≤ maxPages ∧
    (tcs.foldl (round1Step data maxPages) acc).2.length ≤ 2 :=
  foldl_preserve (P := fun a => a.1.length ≤ maxPages ∧ a.2.length ≤ 2)
    (round1Step data maxPages) tcs acc
    (fun b a _ hb => round1Step_caps data maxPages b a hb.1 hb.2) ⟨h1, h2⟩

theorem round2_fold_caps (data : MemoryData) (maxPages : Nat)
    (tcs : List ToolCall) (acc : List Page × List Character)
    (h1 : acc.1.length ≤ maxPages) (h2 : acc.2.length ≤ 2) :
    (tcs.foldl (round2Step data maxPages) acc).1.length ≤ maxPages ∧
    (tcs.foldl (round2Step data maxPages) acc).2.length ≤ 2 :=
  foldl_preserve (P := fun a => a.1.length ≤ maxPages ∧ a.2.length ≤ 2)
    (round2Step data maxPages) tcs acc
    (fun b a _ hb => round2Step_caps data maxPages b a hb.1 hb.2) ⟨h1, h2⟩

theorem agentRounds_caps (data : MemoryData) (maxPages : Nat)
    (tcs : List ToolCall) (r2 : Option (List ToolCall)) :
    (agentRounds data maxPages tcs r2).1.length ≤ maxPages ∧
    (agentRounds data maxPages tcs r2).2.length ≤ 2 := by
  have hacc := round1_fold_caps data maxPages
    (tcs.filter (fun tc =>
      tc.name = "recall_story_page" ∨ tc.name = "recall_character"))
    ([], []) (by simp) (by simp)
  simp only [agentRounds]
  split
  · split
    · exact hacc
    · exact round2_fold_caps data maxPages _ _ hacc.1 hacc.2
  · exact hacc

/-- C6 (confirmed): whatever the store, candidate set (in particular any
embedding pre-filter output feeding the agent) and model tool-call responses,
the agent tier and the keyword fallback tier return at most `maxPages` pages
and at most 2 character dossiers. -/
theorem retrieval_caps (data : MemoryData) (cand : Option (List Page))
    (maxPages : Nat) (r1 r2 : Option (List ToolCall)) (qk : List String) :
    (agentRetrieve data cand maxPages r1 r2).pages.length ≤ maxPages ∧
    (agentRetrieve data cand maxPages r1 r2).characters.length ≤ 2 ∧
    (keywordFallbackRetrieve data qk maxPages).pages.length ≤ maxPages ∧
    (keywordFallbackRetrieve data qk maxPages).characters.length ≤ 2 := by
  have hagent : (agentRetrieve data cand maxPages r1 r2).pages.length ≤ maxPages ∧
      (agentRetrieve data cand maxPages r1 r2).characters.length ≤ 2 := by
    cases r1 with
    | none =>
      simp only [agentRetrieve]
      split
      · simp
      · split
        · simp
        · simp
    | some tcs =>
      simp only [agentRetrieve]
      split
      · simp
      · split
        · simp
        · exact agentRounds_caps data maxPages tcs r2
  refine ⟨hagent.1, hagent.2, ?_, ?_⟩
  · rw [keywordFallbackRetrieve]
    simp only [List.length_map]
    exact List.length_take_le maxPages _
  · rw [keywordFallbackRetrieve]
    exact List.length_take_le 2 _

/-!  ## C7: deduplication of direct-fetch calls  -/

theorem round1Step_shape (data : MemoryData) (maxPages : Nat)
    (acc : List Page × List Character) (tc : ToolCall) :
    round1Step data maxPages acc tc = acc ∨
    (∃ page, tc.name = "recall_story_page" ∧ truthyStr tc.arguments.page_id
      ∧ tc.arguments.page_id = some page.id
      ∧ data.pages.find? (fun p => some p.id = tc.arguments.page_id) = some page
      ∧ round1Step data maxPages acc tc = (acc.1 ++ [page], acc.2)) ∨
    (∃ ch, tc.name = "recall_character" ∧ truthyStr tc.arguments.name
      ∧ tc.arguments.name = some ch.name
      ∧ data.characters.find? (fun c => some c.name = tc.arguments.name) = some ch
      ∧ round1Step data maxPages acc tc = (acc.1, acc.2 ++ [ch])) := by
  rw [round1Step]
  split
  · rename_i hname
    split
    · rename_i page hfind
      have hpred := List.find?_some hfind
      simp only [decide_eq_true_eq] at hpred
      split
      · exact Or.inr (Or.inl ⟨page, hname.1, hname.2, hpred.symm, hfind, rfl⟩)
      · exact Or.inl rfl
    · exact Or.inl rfl
  · split
    · rename_i hname
      split
      · rename_i ch hfind
        have hpred := List.find?_some hfind
        simp only [decide_eq_true_eq] at hpred
        split
        · exact Or.inr (Or.inr ⟨ch, hname.1, hname.2, hpred.symm, hfind, rfl⟩)
        · exact Or.inl rfl
      · exact Or.inl rfl
    · exact Or.inl rfl

theorem r1PageIdsOf_cons (tc : ToolCall) (rest : List ToolCall) :
    r1PageIdsOf (tc :: rest) =
      (if tc.name = "recall_story_page" ∧ truthyStr tc.arguments.page_id then
        tc.arguments.page_id else none).toList ++ r1PageIdsOf rest := by
  rw [r1PageIdsOf, List.filterMap_cons]
  split
  · rename_i h
    rw [h]
    rfl
  · rename_i o h
    rw [h]
    rfl

theorem r1CharNamesOf_cons (tc : ToolCall) (rest : List ToolCall) :
    r1CharNamesOf (tc :: rest) =
      (if tc.name = "recall_character" ∧ truthyStr tc.arguments.name then
        tc.arguments.name else none).toList ++ r1CharNamesOf rest := by
  rw [r1CharNamesOf, List.filterMap_cons]
  split
  · rename_i h
    rw [h]
    rfl
  · rename_i o h
    rw [h]
    rfl

theorem r1_fold_nodup (data : MemoryData) (maxPages : Nat) :
    ∀ (tcs : List ToolCall) (acc : List Page × List Character),
    acc.1.Nodup → acc.2.Nodup →
    (r1PageIdsOf tcs).Nodup → (r1CharNamesOf tcs).Nodup →
    (∀ p ∈ acc.1, p.id ∉ r1PageIdsOf tcs) →
    (∀ c ∈ acc.2, c.name ∉ r1CharNamesOf tcs) →
    (tcs.foldl (round1Step data maxPages) acc).1.Nodup ∧
    (tcs.foldl (round1Step data maxPages) acc).2.Nodup := by
  intro tcs
  induction tcs with
  | nil => intro acc h1 h2 _ _ _ _; exact ⟨h1, h2⟩
  | cons tc rest ih =>
    intro acc h1 h2 hp hc hip hic
    rw [List.foldl_cons]
    rcases round1Step_shape data maxPages acc tc with heq
      | ⟨page, hn, ht, hid, hfind, heq⟩ | ⟨ch, hn, ht, hid, hfind, heq⟩
    · rw [heq]
      have hsubp : ∀ x ∈ r1PageIdsOf rest, x ∈ r1PageIdsOf (tc :: rest) := by
        intro x hx
        rw [r1PageIdsOf_cons]
        exact List.mem_append_right _ hx
      have hsubc : ∀ x ∈ r1CharNamesOf rest, x ∈ r1CharNamesOf (tc :: rest) := by
        intro x hx
        rw [r1CharNamesOf_cons]
        exact List.mem_append_right _ hx
      refine ih acc h1 h2 ?_ ?_ ?_ ?_
      · have := hp
        rw [r1PageIdsOf_cons] at this
        exact this.of_append_right
      · have := hc
        rw [r1CharNamesOf_cons] at this
        exact this.of_append_right
      · exact fun p hpm hmem => hip p hpm (hsubp _ hmem)
      · exact fun c hcm hmem => hic c hcm (hsubc _ hmem)
    · -- a page was pushed
      rw [heq]
      have hcons : r1PageIdsOf (tc :: rest) = page.id :: r1PageIdsOf rest := by
        rw [r1PageIdsOf_cons]
        have ht' : truthyStr (some page.id) = true := hid ▸ ht
        simp [hn, hid, ht']
      rw [hcons] at hp hip
      have hccons : r1CharNamesOf (tc :: rest) = r1CharNamesOf rest := by
        rw [r1CharNamesOf_cons]
        have : ¬ (tc.name = "recall_character" ∧ truthyStr tc.arguments.name = true) := by
          rw [hn]
          simp
        simp [this]
      rw [hccons] at hc hic
      rw [List.nodup_cons] at hp
      refine ih _ ?_ h2 hp.2 hc ?_ hic
      · rw [List.nodup_append]
        refine ⟨h1, List.nodup_singleton page, ?_⟩
        intro a ha hb
        rw [List.mem_singleton] at hb
        subst hb
        exact hip a ha (List.mem_cons_self _ _)
      · intro p hpm
        rcases List.mem_append.mp hpm with hin | hin
        · exact fun hmem => hip p hin (List.mem_cons_of_mem _ hmem)
        · rw [List.mem_singleton] at hin
          subst hin
          exact hp.1
    · -- a character was pushed
      rw [heq]
      have hcons : r1CharNamesOf (tc :: rest) = ch.name :: r1CharNamesOf rest := by
        rw [r1CharNamesOf_cons]
        have ht' : truthyStr (some ch.name) = true := hid ▸ ht
        simp [hn, hid, ht']
      rw [hcons] at hc hic
      have hpcons : r1PageIdsOf (tc :: rest) = r1PageIdsOf rest := by
        rw [r1PageIdsOf_cons]
        have : ¬ (tc.name = "recall_story_page" ∧ truthyStr tc.arguments.page_id = true) := by
          rw [hn]
          simp
        simp [this]
      rw [hpcons] at hp hip
      rw [List.nodup_cons] at hc
      refine ih _ h1 ?_ hp hc.2 hip ?_
      · rw [List.nodup_append]
        refine ⟨h2, List.nodup_singleton ch, ?_⟩
        intro a ha hb
        rw [List.mem_singleton] at hb
        subst hb
        exact hic a ha (List.mem_cons_self _ _)
      · intro c hcm
        rcases List.mem_append.mp hcm with hin | hin
        · exact fun hmem => hic c hin (List.mem_cons_of_mem _ hmem)
        · rw [List.mem_singleton] at hin
          subst hin
          exact hc.1

theorem round2Step_nodup (data : MemoryData) (maxPages : Nat)
    (acc : List Page × List Character) (tc : ToolCall)
    (h1 : acc.1.Nodup) (h2 : acc.2.Nodup) :
    (round2Step data maxPages acc tc).1.Nodup ∧
    (round2Step data maxPages acc tc).2.Nodup := by
  rw [round2Step]
  split
  · split
    · split
      · rename_i hcond
        refine ⟨?_, h2⟩
        rw [List.nodup_append]
        refine ⟨h1, List.nodup_singleton _, ?_⟩
        intro a ha hb
        rw [List.mem_singleton] at hb
        subst hb
        exact hcond.2 ha
      · exact ⟨h1, h2⟩
    · exact ⟨h1, h2⟩
  · split
    · split
      · split
        · rename_i hcond
          refine ⟨h1, ?_⟩
          rw [List.nodup_append]
          refine ⟨h2, List.nodup_singleton _, ?_⟩
          intro a ha hb
          rw [List.mem_singleton] at hb
          subst hb
          exact hcond.2 ha
        · exact ⟨h1, h2⟩
      · exact ⟨h1, h2⟩
    · exact ⟨h1, h2⟩

theorem r1PageIdsOf_filter (tcs : List ToolCall) :
    r1PageIdsOf (tcs.filter (fun tc =>
      tc.name = "recall_story_page" ∨ tc.name = "recall_character")) =
    r1PageIdsOf tcs := by
  induction tcs with
  | nil => rfl
  | cons tc rest ih =>
    rw [List.filter_cons]
    split
    · rw [r1PageIdsOf_cons, r1PageIdsOf_cons, ih]
    · rename_i hcond
      simp only [decide_eq_true_eq, not_or] at hcond
      rw [ih, r1PageIdsOf_cons]
      simp [hcond.1]

theorem r1CharNamesOf_filter (tcs : List ToolCall) :
    r1CharNamesOf (tcs.filter (fun tc =>
      tc.name = "recall_story_page" ∨ tc.name = "recall_character")) =
    r1CharNamesOf tcs := by
  induction tcs with
  | nil => rfl
  | cons tc rest ih =>
    rw [List.filter_cons]
    split
    · rw [r1CharNamesOf_cons, r1CharNamesOf_cons, ih]
    · rename_i hcond
      simp only [decide_eq_true_eq, not_or] at hcond
      rw [ih, r1CharNamesOf_cons]
      simp [hcond.2]

theorem agentRounds_dedup (data : MemoryData) (maxPages : Nat)
    (tcs : List ToolCall) (r2 : Option (List ToolCall))
    (hp : (r1PageIdsOf tcs).Nodup) (hc : (r1CharNamesOf tcs).Nodup) :
    (agentRounds data maxPages tcs r2).1.Nodup ∧
    (agentRounds data maxPages tcs r2).2.Nodup := by
  have hacc := r1_fold_nodup data maxPages
    (tcs.filter (fun tc =>
      tc.name = "recall_story_page" ∨ tc.name = "recall_character"))
    ([], []) List.nodup_nil List.nodup_nil
    (by rw [r1PageIdsOf_filter]; exact hp)
    (by rw [r1CharNamesOf_filter]; exact hc)
    (by intro p hpm; cases hpm) (by intro c hcm; cases hcm)
  simp only [agentRounds]
  split
  · split
    · exact hacc
    · exact foldl_preserve
        (P := fun a => a.1.Nodup ∧ a.2.Nodup) _ _ _
        (fun b a _ hb => round2Step_nodup data maxPages b a hb.1 hb.2) hacc
  · exact hacc

/-- C7 (corrected): round-2 additions are deduplicated against the running
selection, but round-1 direct-fetch resolutions are appended without any
dedup check; the returned lists are duplicate-free provided the round-1
direct-fetch calls name pairwise-distinct page ids and character names. -/
theorem agentRetrieve_dedup (data : MemoryData) (cand : Option (List Page))
    (maxPages : Nat) (tcs : List ToolCall) (r2 : Option (List ToolCall))
    (hp : (r1PageIdsOf tcs).Nodup) (hc : (r1CharNamesOf tcs).Nodup) :
    (agentRetrieve data cand maxPages (some tcs) r2).pages.Nodup ∧
    (agentRetrieve data cand maxPages (some tcs) r2).characters.Nodup := by
  simp only [agentRetrieve]
  split
  · simp
  · split
    · simp
    · exact agentRounds_dedup data maxPages tcs r2 hp hc

/-- C7 counterexample: the model repeats the same `recall_story_page` call
twice within round 1 and the page is returned twice — the selection is not
deduplicated within round 1. -/
theorem agentRetrieve_round1_dup_cex :
    (agentRetrieve cexData1 none 3 (some [tcRecallP1, tcRecallP1]) none).pages
      = [cexPage1, cexPage1] := by decide

/-- Witness for the amended C7 theorem at a concrete input. -/
theorem agentRetrieve_dedup_witness :
    (agentRetrieve cexData1 none 3 (some [tcRecallP1]) none).pages.Nodup ∧
    (agentRetrieve cexData1 none 3 (some [tcRecallP1]) none).characters.Nodup :=
  agentRetrieve_dedup cexData1 none 3 [tcRecallP1] none (by decide) (by decide)

/-!  ## C9: candidate enumeration and candidate containment  -/

theorem round1Step_mem_cands (data : MemoryData) (cands : List Page)
    (maxPages : Nat) (acc : List Page × List Character) (tc : ToolCall)
    (hsub : ∀ p ∈ cands, p ∈ data.pages)
    (hnodup : (pageIds data).Nodup)
    (htc : ∀ pid, tc.arguments.page_id = some pid →
      pid ∈ (cands.filter (fun p => p.compressionLevel ≤ COMPRESS_SUMMARY)).map (·.id))
    (hacc : ∀ p ∈ acc.1, p ∈ cands) :
    ∀ p ∈ (round1Step data maxPages acc tc).1, p ∈ cands := by
  rcases round1Step_shape data maxPages acc tc with heq
    | ⟨page, hn, ht, hid, hfind, heq⟩ | ⟨ch, hn, ht, hid, hfind, heq⟩
  · rw [heq]; exact hacc
  · rw [heq]
    intro p hp
    rcases List.mem_append.mp hp with hin | hin
    · exact hacc p hin
    · rw [List.mem_singleton] at hin
      have hmem := htc page.id hid
      rw [List.mem_map] at hmem
      obtain ⟨c, hcmem, hcid⟩ := hmem
      have hc_cands : c ∈ cands := List.mem_of_mem_filter hcmem
      have hpage_mem : page ∈ data.pages := List.mem_of_find?_eq_some hfind
      rw [pageIds] at hnodup
      have hceq := List.inj_on_of_nodup_map hnodup (hsub c hc_cands) hpage_mem hcid
      rw [hin, ← hceq]
      exact hc_cands
  · rw [heq]
    exact hacc

theorem round2Step_mem_cands (data : MemoryData) (cands : List Page)
    (maxPages : Nat) (acc : List Page × List Character) (tc : ToolCall)
    (hsub : ∀ p ∈ cands, p ∈ data.pages)
    (hnodup : (pageIds data).Nodup)
    (htc : ∀ pid, tc.arguments.page_id = some pid →
      pid ∈ (cands.filter (fun p => p.compressionLevel ≤ COMPRESS_SUMMARY)).map (·.id))
    (hacc : ∀ p ∈ acc.1, p ∈ cands) :
    ∀ p ∈ (round2Step data maxPages acc tc).1, p ∈ cands := by
  rw [round2Step]
  split
  · split
    · rename_i page hfind
      split
      · intro p hp
        rcases List.mem_append.mp hp with hin | hin
        · exact hacc p hin
        · rw [List.mem_singleton] at hin
          have hpred := List.find?_some hfind
          simp only [decide_eq_true_eq] at hpred
          have hmem := htc page.id hpred.symm
          rw [List.mem_map] at hmem
          obtain ⟨c, hcmem, hcid⟩ := hmem
          have hc_cands : c ∈ cands := List.mem_of_mem_filter hcmem
          have hpage_mem : page ∈ data.pages := List.mem_of_find?_eq_some hfind
          rw [pageIds] at hnodup
          have hceq := List.inj_on_of_nodup_map hnodup (hsub c hc_cands) hpage_mem hcid
          rw [hin, ← hceq]
          exact hc_cands
      · exact hacc
    · exact hacc
  · split
    · split
      · split
        · exact hacc
        · exact hacc
      · exact hacc
    · exact hacc

theorem agentRounds_mem_cands (data : MemoryData) (cands : List Page)
    (maxPages : Nat) (tcs : List ToolCall) (r2 : Option (List ToolCall))
    (hsub : ∀ p ∈ cands, p ∈ data.pages)
    (hnodup : (pageIds data).Nodup)
    (h1 : ∀ tc ∈ tcs, ∀ pid, tc.arguments.page_id = some pid →
      pid ∈ (cands.filter (fun p => p.compressionLevel ≤ COMPRESS_SUMMARY)).map (·.id))
    (h2 : ∀ tcs2, r2 = some tcs2 → ∀ tc ∈ tcs2, ∀ pid,
      tc.arguments.page_id = some pid →
      pid ∈ (cands.filter (fun p => p.compressionLevel ≤ COMPRESS_SUMMARY)).map (·.id)) :
    ∀ p ∈ (agentRounds data maxPages tcs r2).1, p ∈ cands := by
  have hacc1 : ∀ p ∈ ((tcs.filter (fun tc =>
      tc.name = "recall_story_page" ∨ tc.name = "recall_character")).foldl
        (round1Step data maxPages) ([], [])).1, p ∈ cands := by
    refine foldl_preserve (P := fun (a : List Page × List Character) => ∀ p ∈ a.1, p ∈ cands) _ _ _ ?_ ?_
    · intro b a ha hb
      exact round1Step_mem_cands data cands maxPages b a hsub hnodup
        (h1 a (List.mem_of_mem_filter ha)) hb
    · intro p hp
      cases hp
  simp only [agentRounds]
  split
  · cases r2 with
    | none => exact hacc1
    | some tcs2 =>
      refine foldl_preserve
        (P := fun (a : List Page × List Character) => ∀ p ∈ a.1, p ∈ cands)
        _ _ _ ?_ hacc1
      intro b a ha hb
      exact round2Step_mem_cands data cands maxPages b a hsub hnodup
        (h2 tcs2 rfl a ha) hb
  · exact hacc1

/-- C9 (corrected): the `recall_story_page` tool's enumerable values are
exactly the ids of the candidate pages with `compressionLevel ≤ SUMMARY`,
but the resolution of a recall call searches the whole store
(`data.pages.find`), so containment of the returned selection in the
candidate set holds only when every `page_id` the model sends is drawn from
that enumeration. -/
theorem agentRetrieve_enum_and_candidates (data : MemoryData) (cands : List Page)
    (maxPages : Nat) (tcs : List ToolCall) (r2 : Option (List ToolCall))
    (henum : cands.filter (fun p => p.compressionLevel ≤ COMPRESS_SUMMARY) ≠ [])
    (hsub : ∀ p ∈ cands, p ∈ data.pages)
    (hnodup : (pageIds data).Nodup)
    (h1 : ∀ tc ∈ tcs, ∀ pid, tc.arguments.page_id = some pid →
      pid ∈ (cands.filter (fun p => p.compressionLevel ≤ COMPRESS_SUMMARY)).map (·.id))
    (h2 : ∀ tcs2, r2 = some tcs2 → ∀ tc ∈ tcs2, ∀ pid,
      tc.arguments.page_id = some pid →
      pid ∈ (cands.filter (fun p => p.compressionLevel ≤ COMPRESS_SUMMARY)).map (·.id)) :
    ((buildRetrievalTools data (some cands)).find? (fun t => t.name = "recall_story_page")
      = some ⟨"recall_story_page",
          (cands.filter (fun p => p.compressionLevel ≤ COMPRESS_SUMMARY)).map (·.id)⟩) ∧
    (∀ p ∈ (agentRetrieve data (some cands) maxPages (some tcs) r2).pages, p ∈ cands) := by
  constructor
  · rw [buildRetrievalTools]
    rcases hfl : cands.filter (fun p => p.compressionLevel ≤ COMPRESS_SUMMARY) with
      _ | ⟨a, rest⟩
    · exact absurd hfl henum
    · simp [hfl, List.find?_cons]
  · simp only [agentRetrieve]
    split
    · simp
    · split
      · simp
      · exact agentRounds_mem_cands data cands maxPages tcs r2 hsub hnodup h1 h2

/-- C9 counterexample: the candidate set is `[cexPage1]` but the model names
the id of `cexPage2` (outside the enumeration) and the agent returns that
out-of-candidate page, selected from the full store. -/
theorem agentRetrieve_outside_candidates_cex :
    (agentRetrieve cexData9 (some [cexPage1]) 3 (some [tcRecallP2]) none).pages
        = [cexPage2]
      ∧ cexPage2 ∉ [cexPage1] := by decide

/-- Witness for the amended C9 theorem at a concrete input. -/
theorem agentRetrieve_enum_and_candidates_witness :
    ((buildRetrievalTools cexData9 (some [cexPage1])).find?
        (fun t => t.name = "recall_story_page")
      = some ⟨"recall_story_page",
          (([cexPage1].filter (fun p => p.compressionLevel ≤ COMPRESS_SUMMARY)).map
            (·.id))⟩) ∧
    (∀ p ∈ (agentRetrieve cexData9 (some [cexPage1]) 3 (some [tcRecallP1]) none).pages,
      p ∈ [cexPage1]) :=
  agentRetrieve_enum_and_candidates cexData9 [cexPage1] 3 [tcRecallP1] none
    (by decide) (by decide) (by decide) (by decide)
    (fun tcs2 h => by cases h)

/-!  ## C8: embedding pre-filter  -/

theorem preFilterScored_mem (score : List ℚ → List ℚ → ℚ) (data : MemoryData)
    (qv : List ℚ) (pr : Page × ℚ) :
    pr ∈ preFilterScored score data qv ↔
      ∃ p v, pr = (p, score qv v) ∧ p ∈ data.pages ∧
        p.compressionLevel ≤ COMPRESS_SUMMARY ∧
        lookupEmbedding data.embeddings p.id = some v := by
  rw [preFilterScored, List.mem_filterMap]
  constructor
  · rintro ⟨a, ha, hfa⟩
    split at hfa
    · cases hfa
    · rename_i hlev
      rcases hv : lookupEmbedding data.embeddings a.id with _ | v
      · rw [hv] at hfa
        cases hfa
      · rw [hv] at hfa
        simp only [Option.map_some'] at hfa
        injection hfa with hfa
        refine ⟨a, v, hfa.symm, ha, ?_, hv⟩
        simp only [decide_eq_true_eq, not_lt] at hlev
        exact hlev
  · rintro ⟨p, v, rfl, hpm, hlev, hv⟩
    refine ⟨p, hpm, ?_⟩
    rw [if_neg (by simp only [decide_eq_true_eq, not_lt]; omega), hv]
    rfl

/-- C8 (corrected): the pre-filter returns `null` exactly when the embedding
call for the query throws (network failure, missing configuration); with a
successful call it returns the `topK` pages with the highest similarity score
among the pages with `compressionLevel ≤ SUMMARY` that hold a cached vector —
in particular the *empty list*, not `null`, when the embedding cache is
empty.  Stated for an arbitrary similarity function, hence for the
floating-point cosine `dot(a,b)/(‖a‖·‖b‖)` of the source. -/
theorem embeddingPreFilter_spec (score : List ℚ → List ℚ → ℚ)
    (data : MemoryData) (topK : Nat) :
    embeddingPreFilter score data none topK = none ∧
    ∀ qv, ∃ l, embeddingPreFilter score data (some qv) topK = some l ∧
      l.length ≤ topK ∧
      (∀ p ∈ l, p.compressionLevel ≤ COMPRESS_SUMMARY ∧
        (lookupEmbedding data.embeddings p.id).isSome) ∧
      (data.embeddings = [] → l = []) ∧
      (∀ p ∈ l, ∀ vp, lookupEmbedding data.embeddings p.id = some vp →
        ∀ q ∈ data.pages, q ∉ l → q.compressionLevel ≤ COMPRESS_SUMMARY →
        ∀ vq, lookupEmbedding data.embeddings q.id = some vq →
          score qv vq ≤ score qv vp) := by
  refine ⟨rfl, ?_⟩
  intro qv
  refine ⟨((sortByScoreDesc (fun s : Page × ℚ => s.2)
      (preFilterScored score data qv)).take topK).map
      (fun s : Page × ℚ => s.1),
    rfl, ?_, ?_, ?_, ?_⟩
  · simp only [List.length_map]
    exact List.length_take_le topK _
  · intro p hp
    rw [List.mem_map] at hp
    obtain ⟨pair, hpair, rfl⟩ := hp
    have h1 : pair ∈ sortByScoreDesc (fun s => s.2) (preFilterScored score data qv) :=
      List.mem_of_mem_take hpair
    rw [sortByScoreDesc.eq_1, mem_stableSort] at h1
    rw [preFilterScored_mem] at h1
    obtain ⟨p, v, rfl, _, hlev, hv⟩ := h1
    exact ⟨hlev, by rw [hv]; rfl⟩
  · intro hemp
    have hscored : preFilterScored score data qv = [] := by
      rw [preFilterScored, List.filterMap_eq_nil]
      intro a _
      rw [hemp]
      split
      · rfl
      · rfl
    rw [hscored]
    simp [sortByScoreDesc, stableSort]
  · intro p hp vp hvp q hq hqnot hqlev vq hvq
    rw [List.mem_map] at hp
    obtain ⟨pairP, hpairP, hfst⟩ := hp
    have hPmem : pairP ∈ sortByScoreDesc (fun s => s.2) (preFilterScored score data qv) :=
      List.mem_of_mem_take hpairP
    have hPscored := hPmem
    rw [sortByScoreDesc.eq_1, mem_stableSort, preFilterScored_mem] at hPscored
    obtain ⟨p', v, hpr, _, _, hv⟩ := hPscored
    have hp'eq : p' = p := by
      rw [hpr] at hfst
      exact hfst
    subst hp'eq
    rw [hv] at hvp
    injection hvp with hvpv
    subst hvpv
    have hQscored : (q, score qv vq) ∈ preFilterScored score data qv := by
      rw [preFilterScored_mem]
      exact ⟨q, vq, rfl, hq, hqlev, hvq⟩
    have hQsorted : (q, score qv vq) ∈
        sortByScoreDesc (fun s => s.2) (preFilterScored score data qv) := by
      rw [sortByScoreDesc.eq_1, mem_stableSort]
      exact hQscored
    have hpw := pairwise_sortByScoreDesc (fun s : Page × ℚ => s.2)
      (preFilterScored score data qv)
    have hsplit := List.take_append_drop topK
      (sortByScoreDesc (fun s => s.2) (preFilterScored score data qv))
    rw [← hsplit, List.pairwise_append] at hpw
    obtain ⟨_, _, hcross⟩ := hpw
    have hQin := hQsorted
    rw [← hsplit, List.mem_append] at hQin
    rcases hQin with hin | hin
    · exact absurd (List.mem_map.mpr ⟨(q, score qv vq), hin, rfl⟩) hqnot
    · have hle := hcross pairP hpairP (q, score qv vq) hin
      rw [hpr] at hle
      exact hle

/-- C8 counterexample: with a store that has pages but an empty embedding
cache, a successful embedding call yields `some []` — the empty candidate
list — not `null` as the claim states. -/
theorem embeddingPreFilter_emptyCache_cex :
    embeddingPreFilter (fun _ _ => 0) cexData1 (some [1]) 5 = some [] ∧
    (some [] : Option (List Page)) ≠ none ∧ cexData1.pages ≠ [] := by
  refine ⟨rfl, by simp, by decide⟩

/-- Witness for the C8 theorem at a concrete input. -/
theorem embeddingPreFilter_spec_witness :
    embeddingPreFilter (fun _ _ => 0) cexData1 none 3 = none :=
  (embeddingPreFilter_spec (fun _ _ => 0) cexData1 3).1

/-!  ## C10: compressPage frame conditions  -/

/-- C10 (confirmed): `compressPage` mutates nothing unless the page exists,
is FRESH, and the generation call returned a trimmed text longer than 10
characters; in particular a successful but short reply leaves the store — and
hence the page's content, `compressionLevel` and `compressedAt` — unchanged,
so the page stays FRESH for retry. -/
theorem compressPage_frame (st : CompSettings) (now : Nat) (data : MemoryData)
    (pid : String) (llm : Option String) (emb : Option (List ℚ))
    (h : data.pages.find? (fun p => p.id = pid) = none
      ∨ (∃ p, data.pages.find? (fun p => p.id = pid) = some p ∧
          p.compressionLevel ≠ COMPRESS_FRESH)
      ∨ llm = none
      ∨ (∃ s, llm = some s ∧ (jsTrim s).length ≤ 10)) :
    compressPage st now data pid llm emb = data := by
  rcases hf : data.pages.find? (fun p => p.id = pid) with _ | page
  · rw [compressPage.eq_def, hf]
  · rw [compressPage.eq_def, hf]
    simp only
    rcases h with h | ⟨p, hp, hlev⟩ | h | ⟨str, hs, hlen⟩
    · rw [hf] at h
      cases h
    · rw [hf] at hp
      injection hp with hp
      subst hp
      rw [if_pos hlev]
    · split
      · rfl
      · rw [h]
    · split
      · rfl
      · rw [hs]
        simp only
        rw [if_neg]
        intro hc
        omega

/-- Witness for the C10 theorem at a concrete input: the generation call
succeeds but returns a short text, and the FRESH page is left untouched. -/
theorem compressPage_frame_witness :
    compressPage cexSettings 5 cexData1 "p1" (some "short") none = cexData1 :=
  compressPage_frame cexSettings 5 cexData1 "p1" (some "short") none
    (Or.inr (Or.inr (Or.inr ⟨"short", rfl, by decide⟩)))

/-!  ## C3: archivePage cleanup  -/

theorem eraseFirst_subset (p : α → Bool) (l : List α) :
    ∀ a ∈ eraseFirst p l, a ∈ l := by
  induction l with
  | nil => intro a ha; cases ha
  | cons x xs ih =>
    intro a ha
    rw [eraseFirst] at ha
    split at ha
    · exact List.mem_cons_of_mem x ha
    · rcases List.mem_cons.mp ha with rfl | ha
      · exact List.mem_cons_self _ _
      · exact List.mem_cons_of_mem _ (ih a ha)

theorem mem_eraseFirst_of_neg (p : α → Bool) (l : List α) (a : α)
    (ha : a ∈ l) (hpa : ¬ p a = true) : a ∈ eraseFirst p l := by
  induction l with
  | nil => cases ha
  | cons x xs ih =>
    rw [eraseFirst]
    split
    · rename_i hx
      rcases List.mem_cons.mp ha with rfl | ha
      · exact absurd hx hpa
      · exact ha
    · rcases List.mem_cons.mp ha with rfl | ha
      · exact List.mem_cons_self _ _
      · exact List.mem_cons_of_mem x (ih ha)

theorem eraseFirst_no_pred (p : α → Bool) (l : List α)
    (hnodup : l.Nodup)
    (huniq : ∀ a ∈ l, ∀ b ∈ l, p a = true → p b = true → a = b) :
    ∀ a ∈ eraseFirst p l, ¬ p a = true := by
  induction l with
  | nil => intro a ha; cases ha
  | cons x xs ih =>
    rw [List.nodup_cons] at hnodup
    intro a ha
    rw [eraseFirst] at ha
    split at ha
    · rename_i hx
      intro hpa
      have := huniq a (List.mem_cons_of_mem x ha) x (List.mem_cons_self x xs) hpa hx
      subst this
      exact hnodup.1 ha
    · rcases List.mem_cons.mp ha with rfl | ha
      · rename_i hx
        exact hx
      · exact ih hnodup.2
          (fun b hb c hc hpb hpc =>
            huniq b (List.mem_cons_of_mem x hb) c (List.mem_cons_of_mem x hc) hpb hpc)
          a ha

/-- C3 (confirmed): archiving an existing SUMMARY-or-above page removes it
from `pages`, deletes its `embeddings` entry and every occurrence of its id
in the recall log (dropping entries left empty), and — when no dangling
reference existed beforehand — leaves no embeddings key and no recall-log
reference pointing outside `pages`. -/
theorem archivePage_cleanup (data : MemoryData) (pid : String) (p : Page)
    (hfind : data.pages.find? (fun q => q.id = pid) = some p)
    (hlev : COMPRESS_SUMMARY ≤ p.compressionLevel)
    (hnodup : (pageIds data).Nodup) :
    (∀ q ∈ (archivePage data pid).pages, q.id ≠ pid) ∧
    (∀ e ∈ (archivePage data pid).embeddings, e.1 ≠ pid) ∧
    (∀ e ∈ (archivePage data pid).messageRecalls, pid ∉ e.2 ∧ e.2 ≠ []) ∧
    ((∀ e ∈ data.embeddings, ∃ q ∈ data.pages, q.id = e.1) →
      ∀ e ∈ (archivePage data pid).embeddings,
        ∃ q ∈ (archivePage data pid).pages, q.id = e.1) ∧
    ((∀ e ∈ data.messageRecalls, ∀ i ∈ e.2, ∃ q ∈ data.pages, q.id = i) →
      ∀ e ∈ (archivePage data pid).messageRecalls, ∀ i ∈ e.2,
        ∃ q ∈ (archivePage data pid).pages, q.id = i) := by
  have harch : archivePage data pid =
      { data with
        pages := eraseFirst (fun q => q.id = pid) data.pages,
        embeddings := data.embeddings.filter (fun e => e.1 ≠ pid),
        messageRecalls := data.messageRecalls.filterMap (fun e =>
          let filtered := e.2.filter (fun i => i ≠ pid)
          if filtered.isEmpty then none else some (e.1, filtered)) } := by
    rw [archivePage.eq_def, hfind]
    simp only
    rw [if_neg]
    intro hc
    rw [COMPRESS_SUMMARY] at hlev hc
    omega
  rw [pageIds] at hnodup
  have hElemNodup : data.pages.Nodup := hnodup.of_map
  have huniq : ∀ a ∈ data.pages, ∀ b ∈ data.pages,
      (decide (a.id = pid)) = true → (decide (b.id = pid)) = true → a = b := by
    intro a ha b hb hpa hpb
    simp only [decide_eq_true_eq] at hpa hpb
    exact List.inj_on_of_nodup_map hnodup ha hb (hpa.trans hpb.symm)
  rw [harch]
  refine ⟨?_, ?_, ?_, ?_, ?_⟩
  · intro q hq
    have := eraseFirst_no_pred _ data.pages hElemNodup huniq q hq
    simpa using this
  · intro e he
    have := List.of_mem_filter he
    simpa using this
  · intro e he
    rw [List.mem_filterMap] at he
    obtain ⟨a, _, hfa⟩ := he
    simp only at hfa
    split at hfa
    · cases hfa
    · rename_i hne
      injection hfa with hfa
      subst hfa
      constructor
      · intro hmem
        have := List.of_mem_filter hmem
        simp at this
      · intro hnil
        apply hne
        have hfil : List.filter (fun i => decide (i ≠ pid)) a.2 = [] := hnil
        rw [hfil]
        rfl
  · intro hinv e he
    have hmem := List.mem_of_mem_filter he
    have hne := List.of_mem_filter he
    simp only [decide_eq_true_eq] at hne
    obtain ⟨q, hq, hqid⟩ := hinv e hmem
    refine ⟨q, ?_, hqid⟩
    apply mem_eraseFirst_of_neg _ _ _ hq
    simp only [decide_eq_true_eq]
    rw [hqid]
    exact hne
  · intro hinv e he
    rw [List.mem_filterMap] at he
    obtain ⟨a, ha, hfa⟩ := he
    simp only at hfa
    split at hfa
    · cases hfa
    · injection hfa with hfa
      subst hfa
      intro i hi
      have hia := List.mem_of_mem_filter hi
      have hine := List.of_mem_filter hi
      simp only [decide_eq_true_eq] at hine
      obtain ⟨q, hq, hqid⟩ := hinv a ha i hia
      refine ⟨q, ?_, hqid⟩
      apply mem_eraseFirst_of_neg _ _ _ hq
      simp only [decide_eq_true_eq]
      rw [hqid]
      exact hine

/-- Witness for the C3 theorem at a concrete input. -/
theorem archivePage_cleanup_witness :
    (∀ q ∈ (archivePage cexData3 "p1").pages, q.id ≠ "p1") ∧
    (∀ e ∈ (archivePage cexData3 "p1").embeddings, e.1 ≠ "p1") ∧
    (∀ e ∈ (archivePage cexData3 "p1").messageRecalls, "p1" ∉ e.2 ∧ e.2 ≠ []) ∧
    ((∀ e ∈ cexData3.embeddings, ∃ q ∈ cexData3.pages, q.id = e.1) →
      ∀ e ∈ (archivePage cexData3 "p1").embeddings,
        ∃ q ∈ (archivePage cexData3 "p1").pages, q.id = e.1) ∧
    ((∀ e ∈ cexData3.messageRecalls, ∀ i ∈ e.2, ∃ q ∈ cexData3.pages, q.id = i) →
      ∀ e ∈ (archivePage cexData3 "p1").messageRecalls, ∀ i ∈ e.2,
        ∃ q ∈ (archivePage cexData3 "p1").pages, q.id = i) :=
  archivePage_cleanup cexData3 "p1" cexPage1w (by decide) (by decide) (by decide)

/-!  ## C4: the sanitizer's closing-quote heuristic  -/

/-- C4 counterexample: inside a string, a quote followed by a literal newline
and then ordinary content.  The claim's rule (escape unless the next
non-whitespace character is `:`/`,`/`}`/`]` or end-of-input) would escape the
quote and then escape the newline as string content; the code instead treats
the newline itself as a terminator trigger and closes the string. -/
theorem fixJsonString_newline_cex :
    fixJsonString "\"a\"\nb" = "\"a\"\nb" ∧
    fixJsonStringClaimed "\"a\"\nb" = "\"a\\\"\\nb" ∧
    fixJsonString "\"a\"\nb" ≠ fixJsonStringClaimed "\"a\"\nb" := by
  refine ⟨by decide, by decide, by decide⟩

theorem fixLoop_eq_specScan (l : List Char) :
    ∀ inString escaped,
      fixLoop inString escaped l = specScan amendedCloses inString escaped l := by
  have hpeek : peekCloses = amendedCloses := rfl
  induction l with
  | nil => intro inString escaped; rfl
  | cons c rest ih =>
    intro inString escaped
    rw [fixLoop, specScan, hpeek]
    split_ifs <;> simp [ih]

/-- C4 (corrected): the scan emits an unescaped in-string quote as a genuine
terminator iff, after skipping only spaces and tabs, the next character is
`:`, `,`, `}`, `]`, a newline, a carriage return, or the input ends;
otherwise the quote is escaped as content.  Literal newlines and tabs inside
a string are escaped (and carriage returns dropped).  This is proved as an
equality between the source translation and the scanner written from the
amended rule. -/
theorem fixJsonString_amended (raw : String) :
    fixJsonString raw = fixJsonStringAmended raw := by
  rw [fixJsonString, fixJsonStringAmended, fixLoop_eq_specScan]

/-!  ## C5: null on parse failure, no partial mutation  -/

/-- C5 (confirmed): when all three strategies fail, `parseJsonResponse`
returns `null` and never a partial object; and when the generated response of
an extraction cycle parses to `null`, `performExtraction` throws before the
merge, leaving the whole store — timeline, attitudes, characters, items,
pages, embeddings and `processing.lastExtractedMessageId` — exactly as it
was. -/
theorem parseNull_and_extraction_frame :
    (∀ (jparse : String → Option Json) (text : String),
      runStrategy jparse strat1Extract text = none →
      runStrategy jparse strat2Extract text = none →
      runStrategy3 jparse text = none →
      parseJsonResponse jparse text = none) ∧
    (∀ (jparse : String → Option Json) (ctx : ExtCtx) (now : Nat)
      (genId : Nat → String) (data : MemoryData) (response : String),
      (max 0 (data.processing.lastExtractedMessageId + 1)).toNat < ctx.chat.length →
      jsTrim (newMsgsText ctx
        (max 0 (data.processing.lastExtractedMessageId + 1)).toNat) ≠ "" →
      parseJsonResponse jparse response = none →
      performExtraction jparse ctx now genId data (some response)
        = (data, some "Failed to parse extraction response")) := by
  constructor
  · intro jparse text h1 h2 h3
    rw [parseJsonResponse, h1, h2, h3]
  · intro jparse ctx now genId data response h1 h2 h3
    rw [performExtraction]
    simp only
    rw [if_neg (by omega), if_neg h2, h3]

/-- Witness for the C5 theorem at concrete inputs. -/
theorem parseNull_and_extraction_frame_witness :
    parseJsonResponse jnone "hello" = none ∧
    performExtraction jnone wCtx 0 (fun _ => "") emptyData (some "x")
      = (emptyData, some "Failed to parse extraction response") :=
  ⟨parseNull_and_extraction_frame.1 jnone "hello" rfl rfl rfl,
   parseNull_and_extraction_frame.2 jnone wCtx 0 (fun _ => "") emptyData "x"
     (by decide) (by decide) rfl⟩

/-!  ## C2: compression level monotonicity  -/

theorem applyKnownAttitude_pages (kl : List String) (d : MemoryData) (j : Json) :
    (applyKnownAttitude kl d j).pages = d.pages := by
  rw [applyKnownAttitude]
  dsimp only
  repeat' split
  all_goals rfl

theorem applyLegacyCharacter_pages (ul : String) (kl : List String)
    (d : MemoryData) (j : Json) :
    (applyLegacyCharacter ul kl d j).pages = d.pages := by
  rw [applyLegacyCharacter]
  dsimp only
  repeat' split
  all_goals rfl

theorem foldl_pages_const {f : MemoryData → α → MemoryData}
    (hf : ∀ d a, (f d a).pages = d.pages) :
    ∀ (l : List α) (d : MemoryData), (l.foldl f d).pages = d.pages := by
  intro l
  induction l with
  | nil => intro d; rfl
  | cons x xs ih =>
    intro d
    rw [List.foldl_cons, ih, hf]

theorem applyTimelinePart_pages (d : MemoryData) (r : Json) :
    (applyTimelinePart d r).pages = d.pages := by
  rw [applyTimelinePart]
  repeat' split
  all_goals rfl

theorem applyKnownPart_pages (kl : List String) (d : MemoryData) (r : Json) :
    (applyKnownPart kl d r).pages = d.pages := by
  rw [applyKnownPart]
  repeat' split
  · exact foldl_pages_const (applyKnownAttitude_pages kl) _ d
  all_goals rfl

theorem applyNewCharsPart_pages (ul : String) (kl : List String)
    (d : MemoryData) (r : Json) :
    (applyNewCharsPart ul kl d r).pages = d.pages := by
  rw [applyNewCharsPart]
  repeat' split
  all_goals rfl

theorem applyLegacyPart_pages (ul : String) (kl : List String)
    (d : MemoryData) (r : Json) :
    (applyLegacyPart ul kl d r).pages = d.pages := by
  rw [applyLegacyPart]
  repeat' split
  · exact foldl_pages_const (applyLegacyCharacter_pages ul kl) _ d
  all_goals rfl

theorem applyItemsPart_pages (d : MemoryData) (r : Json) :
    (applyItemsPart d r).pages = d.pages := by
  rw [applyItemsPart]
  repeat' split
  all_goals rfl

theorem applyNewPage_shape (now : Nat) (genId : Nat → String)
    (acc : MemoryData × List String × Nat) (pj : Json) :
    applyNewPage now genId acc pj = acc ∨
    ∃ page : Page, page.compressionLevel = COMPRESS_FRESH ∧
      page.id = genId acc.2.2 ∧
      applyNewPage now genId acc pj =
        ({ acc.1 with pages := acc.1.pages ++ [page] },
          acc.2.1 ++ [page.id], acc.2.2 + 1) := by
  rcases acc with ⟨d, ids, k⟩
  rw [applyNewPage]
  simp only
  split
  · exact Or.inl rfl
  · split
    · exact Or.inl rfl
    · refine Or.inr ⟨_, rfl, rfl, rfl⟩

theorem applyNewPage_fold (now : Nat) (genId : Nat → String) :
    ∀ (ps : List Json) (d : MemoryData) (ids : List String) (k : Nat),
    ∃ (newP : List Page) (ks : List Nat),
      (ps.foldl (applyNewPage now genId) (d, ids, k)).1.pages
        = d.pages ++ newP ∧
      (∀ p ∈ newP, p.compressionLevel = COMPRESS_FRESH) ∧
      newP.map (·.id) = ks.map genId ∧ ks.Nodup ∧ (∀ x ∈ ks, k ≤ x) := by
  intro ps
  induction ps with
  | nil =>
    intro d ids k
    exact ⟨[], [], by simp, by simp, by simp, List.nodup_nil, by simp⟩
  | cons pj rest ih =>
    intro d ids k
    rw [List.foldl_cons]
    rcases applyNewPage_shape now genId (d, ids, k) pj with heq | ⟨page, hlev, hid, heq⟩
    · rw [heq]
      exact ih d ids k
    · rw [heq]
      obtain ⟨newP, ks, hpages, hlevs, hmap, hnd, hge⟩ :=
        ih { d with pages := d.pages ++ [page] } (ids ++ [page.id]) (k + 1)
      refine ⟨page :: newP, k :: ks, ?_, ?_, ?_, ?_, ?_⟩
      · rw [hpages]
        simp
      · intro p hp
        rcases List.mem_cons.mp hp with rfl | hp
        · exact hlev
        · exact hlevs p hp
      · simp only [List.map_cons, hmap, hid]
      · rw [List.nodup_cons]
        exact ⟨fun hk => by have := hge k hk; omega, hnd⟩
      · intro x hx
        rcases List.mem_cons.mp hx with rfl | hx
        · exact le_refl x
        · have := hge x hx
          omega

theorem applyExtraction_pages_spec (userName : String) (knownNames : List String)
    (now : Nat) (genId : Nat → String) (data : MemoryData) (result : Json) :
    ∃ (newP : List Page) (ks : List Nat),
      (applyExtractionResult userName knownNames now genId data result).1.pages
        = data.pages ++ newP ∧
      (∀ p ∈ newP, p.compressionLevel = COMPRESS_FRESH) ∧
      newP.map (·.id) = ks.map genId ∧ ks.Nodup := by
  rw [applyExtractionResult]
  have hbase : (applyItemsPart
      (applyLegacyPart ((jsTrim userName).toLower) (knownNames.map (·.toLower))
        (applyNewCharsPart ((jsTrim userName).toLower) (knownNames.map (·.toLower))
          (applyKnownPart (knownNames.map (·.toLower))
            (applyTimelinePart data result) result) result) result) result).pages
      = data.pages := by
    rw [applyItemsPart_pages, applyLegacyPart_pages, applyNewCharsPart_pages,
      applyKnownPart_pages, applyTimelinePart_pages]
  rw [applyNewPagesPart]
  split
  · rename_i ps hps
    obtain ⟨newP, ks, hpages, hlevs, hmap, hnd, _⟩ :=
      applyNewPage_fold now genId ps _ [] 0
    refine ⟨newP, ks, ?_, hlevs, hmap, hnd⟩
    rw [hpages, hbase]
  · exact ⟨[], [], by rw [hbase]; simp, by simp, by simp, List.nodup_nil⟩

theorem find?_append_some {p : α → Bool} {l₁ : List α} (l₂ : List α) {a : α}
    (h : l₁.find? p = some a) : (l₁ ++ l₂).find? p = some a := by
  induction l₁ with
  | nil => cases h
  | cons x xs ih =>
    cases hx : p x with
    | true =>
      rw [List.find?_cons_of_pos _ hx] at h
      rw [List.cons_append, List.find?_cons_of_pos _ hx]
      exact h
    | false =>
      have hx' : ¬ p x = true := by rw [hx]; exact Bool.false_ne_true
      rw [List.find?_cons_of_neg _ hx'] at h
      rw [List.cons_append, List.find?_cons_of_neg _ hx']
      exact ih h

theorem find?_updateFirst_of_ne (l : List Page) (pid pid' : String)
    (f : Page → Page) (hid : ∀ x, (f x).id = x.id) (hne : pid' ≠ pid) :
    (updateFirst (fun p => p.id = pid) f l).find? (fun p => p.id = pid')
      = l.find? (fun p => p.id = pid') := by
  induction l with
  | nil => rfl
  | cons x xs ih =>
    rw [updateFirst]
    split
    · rename_i hx
      simp only [decide_eq_true_eq] at hx
      have h1 : (decide ((f x).id = pid')) = false := by
        simp only [decide_eq_false_iff_not, hid, hx]
        exact fun h => hne h.symm
      have h2 : (decide (x.id = pid')) = false := by
        simp only [decide_eq_false_iff_not, hx]
        exact fun h => hne h.symm
      rw [List.find?_cons, List.find?_cons, h1, h2]
    · rw [List.find?_cons, List.find?_cons]
      split
      · rfl
      · exact ih

theorem find?_updateFirst_self (l : List Page) (pid : String)
    (f : Page → Page) (hid : ∀ x, (f x).id = x.id) (page : Page)
    (hfind : l.find? (fun p => p.id = pid) = some page) :
    (updateFirst (fun p => p.id = pid) f l).find? (fun p => p.id = pid)
      = some (f page) := by
  induction l with
  | nil => cases hfind
  | cons x xs ih =>
    rw [updateFirst]
    rw [List.find?_cons] at hfind
    split
    · rename_i hx
      rw [hx] at hfind
      injection hfind with hfind
      subst hfind
      have hfx : (decide ((f x).id = pid)) = true := by
        simp only [decide_eq_true_eq, hid]
        simp only [decide_eq_true_eq] at hx
        exact hx
      rw [List.find?_cons, hfx]
    · rename_i hx
      rw [Bool.not_eq_true] at hx
      rw [hx] at hfind
      rw [List.find?_cons]
      split
      · rename_i hx2
        rw [hx2] at hx
        cases hx
      · exact ih hfind

theorem updateFirst_map_id (l : List Page) (pid : String) (f : Page → Page)
    (hid : ∀ x, (f x).id = x.id) :
    (updateFirst (fun p => p.id = pid) f l).map (·.id) = l.map (·.id) := by
  induction l with
  | nil => rfl
  | cons x xs ih =>
    rw [updateFirst]
    split
    · simp [hid]
    · simp only [List.map_cons, ih]

theorem find?_eraseFirst_of_ne (l : List Page) (pid pid' : String)
    (hne : pid' ≠ pid) :
    (eraseFirst (fun p => p.id = pid) l).find? (fun p => p.id = pid')
      = l.find? (fun p => p.id = pid') := by
  induction l with
  | nil => rfl
  | cons x xs ih =>
    rw [eraseFirst]
    split
    · rename_i hx
      simp only [decide_eq_true_eq] at hx
      have h2 : (decide (x.id = pid')) = false := by
        simp only [decide_eq_false_iff_not, hx]
        exact fun h => hne h.symm
      rw [List.find?_cons, h2]
    · rw [List.find?_cons, List.find?_cons]
      split
      · rfl
      · exact ih

theorem find?_eraseFirst_self_none (l : List Page) (pid : String)
    (hnodup : (l.map (·.id)).Nodup) :
    (eraseFirst (fun p => p.id = pid) l).find? (fun p => p.id = pid) = none := by
  induction l with
  | nil => rfl
  | cons x xs ih =>
    rw [List.map_cons, List.nodup_cons] at hnodup
    rw [eraseFirst]
    split
    · rename_i hx
      simp only [decide_eq_true_eq] at hx
      rw [List.find?_eq_none]
      intro q hq hqp
      simp only [decide_eq_true_eq] at hqp
      apply hnodup.1
      rw [List.mem_map]
      exact ⟨q, hq, hqp.trans hx.symm⟩
    · rename_i hx
      rw [List.find?_cons]
      split
      · rename_i hx2
        rw [hx2] at hx
        cases hx rfl
      · exact ih hnodup.2

theorem eraseFirst_sublist (p : α → Bool) (l : List α) :
    (eraseFirst p l).Sublist l := by
  induction l with
  | nil => exact List.Sublist.refl []
  | cons x xs ih =>
    rw [eraseFirst]
    split
    · exact List.sublist_cons_self x xs
    · exact List.Sublist.cons₂ x ih

theorem compressPage_shape (st : CompSettings) (now : Nat) (data : MemoryData)
    (pid : String) (llm : Option String) (emb : Option (List ℚ)) :
    compressPage st now data pid llm emb = data ∨
    ∃ page s, data.pages.find? (fun p => p.id = pid) = some page ∧
      page.compressionLevel = COMPRESS_FRESH ∧ llm = some s ∧
      (compressPage st now data pid llm emb).pages
        = updateFirst (fun p => p.id = pid) (summarizeUpd s now) data.pages := by
  rcases hf : data.pages.find? (fun p => p.id = pid) with _ | page
  · left
    rw [compressPage.eq_def, hf]
  · by_cases hlev : page.compressionLevel ≠ COMPRESS_FRESH
    · left
      rw [compressPage.eq_def, hf]
      simp only
      rw [if_pos hlev]
    · push_neg at hlev
      cases llm with
      | none =>
        left
        rw [compressPage.eq_def, hf]
        simp only
        rw [if_neg (fun h => h hlev)]
      | some s =>
        by_cases hc : s ≠ "" ∧ 10 < (jsTrim s).length
        · refine Or.inr ⟨page, s, hf, hlev, rfl, ?_⟩
          rw [compressPage.eq_def, hf]
          simp only
          rw [if_neg (fun h => h hlev), if_pos hc]
          try dsimp only
          repeat' split
          all_goals rfl
        · left
          rw [compressPage.eq_def, hf]
          simp only
          rw [if_neg (fun h => h hlev), if_neg hc]

theorem compressPage_level (st : CompSettings) (now : Nat) (data : MemoryData)
    (pid : String) (llm : Option String) (emb : Option (List ℚ)) :
    (∀ pid', levelOf (compressPage st now data pid llm emb) pid'
        = levelOf data pid'
      ∨ (pid' = pid ∧ levelOf data pid' = some COMPRESS_FRESH ∧
        levelOf (compressPage st now data pid llm emb) pid'
          = some COMPRESS_SUMMARY)) ∧
    pageIds (compressPage st now data pid llm emb) = pageIds data := by
  rcases compressPage_shape st now data pid llm emb with heq
    | ⟨page, s, hfind, hlev, _, hpages⟩
  · rw [heq]
    exact ⟨fun pid' => Or.inl rfl, rfl⟩
  · constructor
    · intro pid'
      by_cases hpe : pid' = pid
      · subst hpe
        right
        refine ⟨rfl, ?_, ?_⟩
        · rw [levelOf, hfind, Option.map_some', hlev]
        · rw [levelOf, hpages,
            find?_updateFirst_self data.pages pid' (summarizeUpd s now)
              (fun x => rfl) page hfind]
          rfl
      · left
        rw [levelOf, levelOf, hpages,
          find?_updateFirst_of_ne data.pages pid pid' (summarizeUpd s now)
            (fun x => rfl) hpe]
    · rw [pageIds, pageIds, hpages,
        updateFirst_map_id data.pages pid (summarizeUpd s now) (fun x => rfl)]

theorem archivePage_shape (data : MemoryData) (pid : String) :
    archivePage data pid = data ∨
    (archivePage data pid).pages = eraseFirst (fun p => p.id = pid) data.pages := by
  rcases hf : data.pages.find? (fun p => p.id = pid) with _ | page
  · left
    rw [archivePage.eq_def, hf]
  · by_cases hlev : page.compressionLevel < COMPRESS_SUMMARY
    · left
      rw [archivePage.eq_def, hf]
      simp only
      rw [if_pos hlev]
    · right
      rw [archivePage.eq_def, hf]
      simp only
      rw [if_neg hlev]

theorem archivePage_level (data : MemoryData) (pid : String)
    (hnodup : (pageIds data).Nodup) :
    LevelMono data (archivePage data pid) ∧
    NoRevive data (archivePage data pid) ∧
    (pageIds (archivePage data pid)).Nodup := by
  rcases archivePage_shape data pid with heq | hpages
  · rw [heq]
    exact ⟨fun pid' l l' h1 h2 => by rw [h1] at h2; injection h2 with h2; omega,
      fun pid' h => h, hnodup⟩
  · have hlev : ∀ pid', levelOf (archivePage data pid) pid' = levelOf data pid'
        ∨ levelOf (archivePage data pid) pid' = none := by
      intro pid'
      by_cases hpe : pid' = pid
      · subst hpe
        right
        rw [levelOf, hpages, find?_eraseFirst_self_none data.pages pid' hnodup]
        rfl
      · left
        rw [levelOf, levelOf, hpages,
          find?_eraseFirst_of_ne data.pages pid pid' hpe]
    refine ⟨?_, ?_, ?_⟩
    · intro pid' l l' h1 h2
      rcases hlev pid' with h | h
      · rw [h, h1] at h2
        injection h2 with h2
        omega
      · rw [h] at h2
        cases h2
    · intro pid' h1
      rcases hlev pid' with h | h
      · rw [h, h1]
      · exact h
    · rw [pageIds, hpages]
      exact hnodup.sublist (List.Sublist.map _ (eraseFirst_sublist _ data.pages))

theorem compressTimeline_pages (st : CompSettings) (data : MemoryData)
    (llm : Option String) : (compressTimeline st data llm).pages = data.pages := by
  rw [compressTimeline.eq_def]
  dsimp only
  repeat' split
  all_goals rfl

theorem mono_of_pages_eq {d d' : MemoryData} (h : d'.pages = d.pages) :
    LevelMono d d' ∧ NoRevive d d' := by
  have hl : ∀ pid, levelOf d' pid = levelOf d pid := by
    intro pid
    rw [levelOf, levelOf, h]
  exact ⟨fun pid l l' h1 h2 => by rw [hl pid, h1] at h2; injection h2 with h2; omega,
    fun pid h1 => by rw [hl pid, h1]⟩

theorem mono_trans {d1 d2 d3 : MemoryData}
    (h12 : LevelMono d1 d2 ∧ NoRevive d1 d2)
    (h23 : LevelMono d2 d3 ∧ NoRevive d2 d3) :
    LevelMono d1 d3 ∧ NoRevive d1 d3 := by
  constructor
  · intro pid l l' h1 h3
    rcases hmid : levelOf d2 pid with _ | lm
    · rw [h23.2 pid hmid] at h3
      cases h3
    · exact le_trans (h12.1 pid l lm h1 hmid) (h23.1 pid lm l' hmid h3)
  · intro pid h1
    exact h23.2 pid (h12.2 pid h1)

theorem foldl_mono {f : MemoryData → α → MemoryData}
    (hf : ∀ d a, (pageIds d).Nodup →
      (LevelMono d (f d a) ∧ NoRevive d (f d a)) ∧ (pageIds (f d a)).Nodup) :
    ∀ (l : List α) (d : MemoryData), (pageIds d).Nodup →
      (LevelMono d (l.foldl f d) ∧ NoRevive d (l.foldl f d)) ∧
      (pageIds (l.foldl f d)).Nodup := by
  intro l
  induction l with
  | nil =>
    intro d h
    exact ⟨mono_of_pages_eq rfl, h⟩
  | cons x xs ih =>
    intro d h
    rw [List.foldl_cons]
    obtain ⟨hstep, hnd⟩ := hf d x h
    obtain ⟨hrest, hnd'⟩ := ih (f d x) hnd
    exact ⟨mono_trans hstep hrest, hnd'⟩

theorem compressPage_mono (st : CompSettings) (now : Nat) (data : MemoryData)
    (pid : String) (llm : Option String) (emb : Option (List ℚ)) :
    (LevelMono data (compressPage st now data pid llm emb) ∧
      NoRevive data (compressPage st now data pid llm emb)) ∧
    (pageIds (compressPage st now data pid llm emb)).Nodup
      = (pageIds data).Nodup := by
  obtain ⟨hlev, hids⟩ := compressPage_level st now data pid llm emb
  refine ⟨⟨?_, ?_⟩, by rw [hids]⟩
  · intro pid' l l' h1 h2
    rcases hlev pid' with h | ⟨_, hfr, hsu⟩
    · rw [h, h1] at h2
      injection h2 with h2
      omega
    · rw [hfr] at h1
      injection h1 with h1
      rw [hsu] at h2
      injection h2 with h2
      subst h1
      subst h2
      rw [COMPRESS_FRESH, COMPRESS_SUMMARY]
      omega
  · intro pid' h1
    rcases hlev pid' with h | ⟨_, hfr, _⟩
    · rw [h, h1]
    · rw [h1] at hfr
      cases hfr

theorem runCompressionCycle_mono (st : CompSettings) (now : Nat) (force : Bool)
    (tLLM : Option String) (pLLM : String → Option String)
    (pEmb : String → Option (List ℚ)) (data : MemoryData)
    (hnodup : (pageIds data).Nodup) :
    (LevelMono data (runCompressionCycle st now force tLLM pLLM pEmb data) ∧
      NoRevive data (runCompressionCycle st now force tLLM pLLM pEmb data)) ∧
    (pageIds (runCompressionCycle st now force tLLM pLLM pEmb data)).Nodup := by
  rw [runCompressionCycle]
  split
  · exact ⟨mono_of_pages_eq rfl, hnodup⟩
  · have h1 : (LevelMono data (compressTimeline st data tLLM) ∧
        NoRevive data (compressTimeline st data tLLM)) ∧
        (pageIds (compressTimeline st data tLLM)).Nodup := by
      refine ⟨mono_of_pages_eq (compressTimeline_pages st data tLLM), ?_⟩
      rw [pageIds, compressTimeline_pages st data tLLM]
      exact hnodup
    have hcstep : ∀ (d : MemoryData) (page : Page), (pageIds d).Nodup →
        (LevelMono d (compressPage st now d page.id (pLLM page.id) (pEmb page.id)) ∧
          NoRevive d (compressPage st now d page.id (pLLM page.id) (pEmb page.id))) ∧
        (pageIds (compressPage st now d page.id (pLLM page.id) (pEmb page.id))).Nodup := by
      intro d page hnd
      obtain ⟨hm, he⟩ := compressPage_mono st now d page.id (pLLM page.id) (pEmb page.id)
      exact ⟨hm, he ▸ hnd⟩
    have hastep : ∀ (d : MemoryData) (page : Page), (pageIds d).Nodup →
        (LevelMono d (archivePage d page.id) ∧ NoRevive d (archivePage d page.id)) ∧
        (pageIds (archivePage d page.id)).Nodup := by
      intro d page hnd
      obtain ⟨ha, hb, hc⟩ := archivePage_level d page.id hnd
      exact ⟨⟨ha, hb⟩, hc⟩
    have h2 : ∀ (d : MemoryData), (pageIds d).Nodup → ∀ (l : List Page),
        (LevelMono d (l.foldl (fun d page =>
            compressPage st now d page.id (pLLM page.id) (pEmb page.id)) d) ∧
          NoRevive d (l.foldl (fun d page =>
            compressPage st now d page.id (pLLM page.id) (pEmb page.id)) d)) ∧
        (pageIds (l.foldl (fun d page =>
            compressPage st now d page.id (pLLM page.id) (pEmb page.id)) d)).Nodup := by
      intro d hnd l
      exact foldl_mono (fun d page hx => hcstep d page hx) l d hnd
    have h3 : ∀ (d : MemoryData), (pageIds d).Nodup → ∀ (l : List Page),
        (LevelMono d (l.foldl (fun d page => archivePage d page.id) d) ∧
          NoRevive d (l.foldl (fun d page => archivePage d page.id) d)) ∧
        (pageIds (l.foldl (fun d page => archivePage d page.id) d)).Nodup := by
      intro d hnd l
      exact foldl_mono (fun d page hx => hastep d page hx) l d hnd
    dsimp only
    repeat' split
    all_goals first
      | exact ⟨mono_trans (mono_trans h1.1 (h2 _ h1.2 _).1)
            (h3 _ (h2 _ h1.2 _).2 _).1,
          (h3 _ (h2 _ h1.2 _).2 _).2⟩
      | exact ⟨mono_trans h1.1 (h2 _ h1.2 _).1, (h2 _ h1.2 _).2⟩
      | exact ⟨mono_trans h1.1 (h3 _ h1.2 _).1, (h3 _ h1.2 _).2⟩
      | exact h1

theorem performExtraction_pages (jp : String → Option Json) (ctx : ExtCtx)
    (now : Nat) (genId : Nat → String) (data : MemoryData)
    (resp : Option String) :
    ∃ (newP : List Page) (ks : List Nat),
      (performExtraction jp ctx now genId data resp).1.pages
        = data.pages ++ newP ∧
      (∀ p ∈ newP, p.compressionLevel = COMPRESS_FRESH) ∧
      newP.map (·.id) = ks.map genId ∧ ks.Nodup := by
  rw [performExtraction.eq_def]
  dsimp only
  split
  · exact ⟨[], [], by simp, by simp, by simp, List.nodup_nil⟩
  · split
    · exact ⟨[], [], by simp, by simp, by simp, List.nodup_nil⟩
    · cases resp with
      | none => exact ⟨[], [], by simp, by simp, by simp, List.nodup_nil⟩
      | some r =>
        dsimp only
        rcases hp : parseJsonResponse jp r with _ | result
        · exact ⟨[], [], by simp, by simp, by simp, List.nodup_nil⟩
        · obtain ⟨newP, ks, hpages, hlevs, hmap, hnd⟩ :=
            applyExtraction_pages_spec ctx.name1 ctx.knownNames now genId data result
          exact ⟨newP, ks, hpages, hlevs, hmap, hnd⟩

theorem performExtraction_mono (jp : String → Option Json) (ctx : ExtCtx)
    (now : Nat) (genId : Nat → String) (data : MemoryData) (resp : Option String)
    (hnodup : (pageIds data).Nodup) (hinj : Function.Injective genId)
    (hfresh : ∀ k, genId k ∉ pageIds data) :
    LevelMono data (performExtraction jp ctx now genId data resp).1 ∧
    (pageIds (performExtraction jp ctx now genId data resp).1).Nodup := by
  obtain ⟨newP, ks, hpages, _, hmap, hnd⟩ :=
    performExtraction_pages jp ctx now genId data resp
  constructor
  · intro pid l l' h1 h2
    rw [levelOf] at h1 h2
    rcases hf : data.pages.find? (fun p => p.id = pid) with _ | page
    · rw [hf] at h1
      cases h1
    · rw [hf] at h1
      rw [hpages, find?_append_some newP hf] at h2
      rw [h1] at h2
      injection h2 with h2
      omega
  · rw [pageIds, hpages, List.map_append]
    rw [List.nodup_append]
    refine ⟨hnodup, ?_, ?_⟩
    · rw [hmap]
      exact hnd.map hinj
    · intro a ha hb
      rw [hmap] at hb
      rw [List.mem_map] at hb
      obtain ⟨k, _, rfl⟩ := hb
      exact hfresh k ha

theorem applyOp_mono (d : MemoryData) (op : MemOp)
    (hnodup : (pageIds d).Nodup) (hok : opIdsOk d op) :
    LevelMono d (applyOp d op) ∧ (pageIds (applyOp d op)).Nodup := by
  cases op with
  | extractOp jp ctx now genId resp =>
    exact performExtraction_mono jp ctx now genId d resp hnodup hok.1 hok.2
  | compressOp st now pid llm emb =>
    obtain ⟨hm, he⟩ := compressPage_mono st now d pid llm emb
    exact ⟨hm.1, he ▸ hnodup⟩
  | archiveOp pid =>
    obtain ⟨ha, _, hc⟩ := archivePage_level d pid hnodup
    exact ⟨ha, hc⟩
  | timelineOp st llm =>
    refine ⟨(mono_of_pages_eq (compressTimeline_pages st d llm)).1, ?_⟩
    show (List.map (fun x => x.id) (compressTimeline st d llm).pages).Nodup
    rw [compressTimeline_pages st d llm]
    exact hnodup
  | cycleOp st now force tLLM pLLM pEmb =>
    obtain ⟨hm, hn⟩ := runCompressionCycle_mono st now force tLLM pLLM pEmb d hnodup
    exact ⟨hm.1, hn⟩

theorem applyOps_invariant (pre : List MemOp) :
    ∀ (d : MemoryData) (rest : List MemOp), (pageIds d).Nodup →
      opsIdsOk d (pre ++ rest) →
      (pageIds (applyOps d pre)).Nodup ∧ opsIdsOk (applyOps d pre) rest := by
  induction pre with
  | nil => intro d rest h hok; exact ⟨h, hok⟩
  | cons op pre' ih =>
    intro d rest h hok
    rw [List.cons_append, opsIdsOk] at hok
    have hstep := applyOp_mono d op h hok.1
    have := ih (applyOp d op) rest hstep.2 hok.2
    rw [applyOps, List.foldl_cons]
    exact this

/-- C2 (confirmed): along any sequence of extraction and compression
operations (with the `generateId` stream injective and avoiding existing
ids, as collision-resistant generation guarantees), no operation ever lowers
the compression level of any page; `compressPage` either leaves every level
unchanged or advances exactly the targeted FRESH page to SUMMARY; and
`archivePage` does not touch a page below SUMMARY. -/
theorem compressionLevel_monotonic (d0 : MemoryData) (ops pre post : List MemOp)
    (op : MemOp) (hops : ops = pre ++ op :: post)
    (hnodup : (pageIds d0).Nodup) (hok : opsIdsOk d0 ops) :
    LevelMono (applyOps d0 pre) (applyOps d0 (pre ++ [op])) ∧
    (∀ (st : CompSettings) (now : Nat) (data : MemoryData) (pid : String)
      (llm : Option String) (emb : Option (List ℚ)) (pid' : String),
      levelOf (compressPage st now data pid llm emb) pid' = levelOf data pid'
      ∨ (pid' = pid ∧ levelOf data pid' = some COMPRESS_FRESH ∧
        levelOf (compressPage st now data pid llm emb) pid'
          = some COMPRESS_SUMMARY)) ∧
    (∀ (data : MemoryData) (pid : String) (p : Page),
      data.pages.find? (fun q => q.id = pid) = some p →
      p.compressionLevel < COMPRESS_SUMMARY → archivePage data pid = data) := by
  refine ⟨?_, ?_, ?_⟩
  · subst hops
    obtain ⟨hnd, hok'⟩ := applyOps_invariant pre d0 (op :: post) hnodup hok
    rw [opsIdsOk] at hok'
    have hstep := applyOp_mono (applyOps d0 pre) op hnd hok'.1
    have happ : applyOps d0 (pre ++ [op]) = applyOp (applyOps d0 pre) op := by
      rw [applyOps, applyOps, List.foldl_append]
      rfl
    rw [happ]
    exact hstep.1
  · intro st now data pid llm emb pid'
    exact (compressPage_level st now data pid llm emb).1 pid'
  · intro data pid p hfind hlt
    rw [archivePage.eq_def, hfind]
    simp only
    rw [if_pos hlt]

/-- Witness for the C2 theorem at a concrete two-operation sequence
(compress then archive). -/
theorem compressionLevel_monotonic_witness :
    LevelMono (applyOps cexData3 [MemOp.compressOp cexSettings 9 "p1" none none])
      (applyOps cexData3 [MemOp.compressOp cexSettings 9 "p1" none none,
        MemOp.archiveOp "p1"]) ∧
    (∀ (st : CompSettings) (now : Nat) (data : MemoryData) (pid : String)
      (llm : Option String) (emb : Option (List ℚ)) (pid' : String),
      levelOf (compressPage st now data pid llm emb) pid' = levelOf data pid'
      ∨ (pid' = pid ∧ levelOf data pid' = some COMPRESS_FRESH ∧
        levelOf (compressPage st now data pid llm emb) pid'
          = some COMPRESS_SUMMARY)) ∧
    (∀ (data : MemoryData) (pid : String) (p : Page),
      data.pages.find? (fun q => q.id = pid) = some p →
      p.compressionLevel < COMPRESS_SUMMARY → archivePage data pid = data) :=
  compressionLevel_monotonic cexData3
    [MemOp.compressOp cexSettings 9 "p1" none none, MemOp.archiveOp "p1"]
    [MemOp.compressOp cexSettings 9 "p1" none none] [] (MemOp.archiveOp "p1")
    rfl (by decide) ⟨trivial, trivial, trivial⟩

end MemoryManager
